import Mathlib

/-!
Verification of the SSTable writer subsystem of JianYongChan/leveldb.

Shallow embedding conventions:
* byte strings (`Slice`, `std::string`) are `List Nat`, one element per byte;
* machine integers are `Nat` with explicit `% 2^32` where 32-bit overflow
  matters (`uint32_t` arithmetic in the hash probing and fixed32 coding);
* the host-supplied collaborators that are not part of this repository's
  sources (the hash function of `util/hash.cc`, the CRC of `util/crc32c.cc`,
  and the snappy compressor) are explicit function parameters, since every
  property proved here holds for all of them;
* `std::vector`/`std::string` mutation becomes functional record update.

Sources embedded:
* `src/util/bloom.cc`           -- BloomFilterPolicy
* `src/table/filter_block.cc`   -- FilterBlockBuilder / FilterBlockReader
* `src/unnamed/part_001`        -- BlockBuilder::Add (block_builder.cc excerpt)
* `src/unnamed/part_000`        -- TableBuilder (table_builder.cc)
Missing translation units (`coding.cc`, `format.cc`, the comparator and the
rest of `block_builder.cc`) are modelled from the spec where needed; each such
definition is marked `Modelled from the spec:`.
-/

namespace LevelDB

/-- Modelled from the spec: little-endian fixed32 encoding
(`PutFixed32` of the missing `util/coding.cc`; spec section 6.1 "All integers
little-endian"). Encodes `v mod 2^32` on exactly four bytes. -/
def putFixed32 (v : Nat) : List Nat :=
  [v % 256, v / 256 % 256, v / 65536 % 256, v / 16777216 % 256]

/-- Modelled from the spec: little-endian fixed32 decoding at byte position
`p` (`DecodeFixed32` of the missing `util/coding.cc`). Out-of-range reads
yield byte 0. -/
def decodeFixed32 (l : List Nat) (p : Nat) : Nat :=
  l.getD p 0 + 256 * l.getD (p+1) 0 + 65536 * l.getD (p+2) 0
    + 16777216 * l.getD (p+3) 0

/-- Modelled from the spec: varint encoding, 7 bits per byte, MSB
continuation (`PutVarint32`/`PutVarint64` of the missing `util/coding.cc`).
The recursion on `v / 128` is rendered with a fuel argument bounded by `v`
(always sufficient, since `v / 128 < v` whenever `v ≥ 128`) so that the
function evaluates by kernel reduction. -/
def putVarintAux : Nat → Nat → List Nat
  | 0, v => [v]
  | fuel + 1, v =>
    if v < 128 then [v] else (v % 128 + 128) :: putVarintAux fuel (v / 128)

/-- Varint encoding of `v` (see `putVarintAux`). -/
def putVarint (v : Nat) : List Nat := putVarintAux v v

/-- Byte-range view `[a, b)` of a byte string: C++ `Slice(data + a, b - a)`. -/
def slice (l : List Nat) (a b : Nat) : List Nat :=
  (l.drop a).take (b - a)

/-- `array[i] |= (1 << bit)` on a byte string (no-op out of range, the C++
counterpart never goes out of range in the embedded code). -/
def setBitAt (l : List Nat) (i : Nat) (bit : Nat) : List Nat :=
  l.set i ((l.getD i 0) ||| (1 <<< bit))

/-- `(array[i] & (1 << bit)) != 0`: bit test used by the Bloom probe loop. -/
def getBitAt (l : List Nat) (i : Nat) (bit : Nat) : Bool :=
  (l.getD i 0) &&& (1 <<< bit) != 0

/-- Cumulative start offsets of a list of chunks: `offsetsOf a [c₀, c₁, …]`
is `[a, a + |c₀|, a + |c₀| + |c₁|, …]` (one entry per chunk).  This is the
shape of both `FilterBlockBuilder::start_` (starts of the flattened keys) and
`FilterBlockBuilder::filter_offsets_` (starts of the concatenated filters). -/
def offsetsOf (a : Nat) : List (List Nat) → List Nat
  | [] => []
  | c :: rest => a :: offsetsOf (a + c.length) rest

/-! ## Bloom filter policy (`src/util/bloom.cc`)

`BloomFilterPolicy` holds `bits_per_key_` and `k_`.  The constructor computes
`k_ = clamp₍₁,₃₀₎ ⌊bits_per_key · 0.69⌋` with C++ `double` arithmetic; since
floating point is outside the embedding we carry `k` (`kNum`) as a parameter —
the constructor guarantees `kNum ≤ 30` and no claim depends on its exact
value.  The hash `BloomHash` delegates to `Hash(data, size, 0xbc9f1d34)` of
the missing `util/hash.cc`; it is carried as a parameter `hash` and reduced
`% 2^32` (its C++ return type is `uint32_t`). -/

namespace BloomFilterPolicy

/-- One `h += delta` probe round of `CreateFilter`: for `probes` rounds, set
bit `h % bits` of the byte array region starting at `base` (C++
`array[bitpos/8] |= (1 << (bitpos % 8))`), stepping `h` by `delta` mod 2^32. -/
def setBits (bits base : Nat) (h delta : Nat) (probes : Nat) (dst : List Nat) :
    List Nat :=
  match probes with
  | 0 => dst
  | j + 1 =>
    setBits bits base ((h + delta) % 2^32) delta j
      (setBitAt dst (base + (h % bits) / 8) ((h % bits) % 8))

/-- Initial hash and its rotation: `h = BloomHash(key)` and
`delta = (h >> 17) | (h << 15)` in `uint32_t` arithmetic. -/
def hashDelta (hash : List Nat → Nat) (key : List Nat) : Nat × Nat :=
  let h := hash key % 2^32
  (h, ((h >>> 17) ||| ((h <<< 15) % 2^32)) % 2^32)

/-- `BloomFilterPolicy::CreateFilter(keys, n, dst)` of `src/util/bloom.cc`:
grow `dst` by `bytes` zero bytes (`bits = max(64, n·bits_per_key)` rounded up
to a byte multiple), push one byte `k`, then double-hash every key into the
new region. -/
def CreateFilter (hash : List Nat → Nat) (bitsPerKey kNum : Nat)
    (keys : List (List Nat)) (dst : List Nat) : List Nat :=
  let bits0 := keys.length * bitsPerKey
  let bits1 := if bits0 < 64 then 64 else bits0
  let bytes := (bits1 + 7) / 8
  let bits := bytes * 8
  let initSize := dst.length
  let dst := dst ++ List.replicate bytes 0 ++ [kNum]
  keys.foldl
    (fun d key =>
      let hd := hashDelta hash key
      setBits bits initSize hd.1 hd.2 kNum d)
    dst

/-- The probe loop of `KeyMayMatch`: return `false` on the first zero bit. -/
def probe (bits : Nat) (f : List Nat) (h delta : Nat) : Nat → Bool
  | 0 => true
  | j + 1 =>
    if getBitAt f ((h % bits) / 8) ((h % bits) % 8) then
      probe bits f ((h + delta) % 2^32) delta j
    else false

/-- The byte count of one Bloom filter for `n` keys:
`bits = max(64, n·bits_per_key)` rounded up to whole bytes, exactly the
`bits`/`bytes` computation at the head of `CreateFilter`. -/
def bloomBytes (bitsPerKey n : Nat) : Nat :=
  ((if n * bitsPerKey < 64 then 64 else n * bitsPerKey) + 7) / 8

/-- The sequence of bit positions probed for one key: `CreateFilter` and
`KeyMayMatch` both walk `h % bits` with `h += delta` (mod 2^32), so the
double-hashing schedule can be described once and related to both loops. -/
def probeSeq (bits h delta : Nat) : Nat → List Nat
  | 0 => []
  | j + 1 => (h % bits) :: probeSeq bits ((h + delta) % 2^32) delta j

/-- `BloomFilterPolicy::KeyMayMatch(key, bloom_filter)` of
`src/util/bloom.cc`: reject filters shorter than 2 bytes, read the probe
count from the last byte (values above 30 are reserved and treated as a
match), then regenerate the probe sequence. -/
def KeyMayMatch (hash : List Nat → Nat) (key bloomFilter : List Nat) : Bool :=
  let len := bloomFilter.length
  if len < 2 then false
  else
    let bits := (len - 1) * 8
    let k := bloomFilter.getD (len - 1) 0
    if 30 < k then true
    else
      let hd := hashDelta hash key
      probe bits bloomFilter hd.1 hd.2 k

end BloomFilterPolicy

/-! ## Filter policy interface

`FilterPolicy` consumers (`FilterBlockBuilder`, `TableBuilder`) see
`Name()`, `CreateFilter(keys, n, dst)` and `KeyMayMatch(key, filter)`.
`CreateFilter` appends to `dst`; the contract (and the Bloom implementation,
see the append lemma proved below) is that the appended bytes do not depend
on the prior contents of `dst`, so the model's `create` returns just the
appended filter bytes and call sites append them. -/
structure FilterPolicyM where
  name : List Nat
  create : List (List Nat) → List Nat
  mayMatch : List Nat → List Nat → Bool

/-- The Bloom policy packaged as a `FilterPolicyM`
(`NewBloomFilterPolicy` of `src/util/bloom.cc`). -/
def bloomPolicy (hash : List Nat → Nat) (bitsPerKey kNum : Nat) :
    FilterPolicyM where
  name := [108, 101, 118, 101, 108, 100, 98, 46, 66, 117, 105, 108, 116,
           105, 110, 66, 108, 111, 111, 109, 70, 105, 108, 116, 101, 114, 50]
  create := fun ks => BloomFilterPolicy.CreateFilter hash bitsPerKey kNum ks []
  mayMatch := fun key f => BloomFilterPolicy.KeyMayMatch hash key f

/-! ## Filter block builder and reader (`src/table/filter_block.cc`) -/

/-- `kFilterBaseLg = 11` of `src/table/filter_block.cc`. -/
def kFilterBaseLg : Nat := 11

/-- `kFilterBase = 1 << kFilterBaseLg = 2048`. -/
def kFilterBase : Nat := 2048

/-- State of `FilterBlockBuilder` (`src/table/filter_block.h`):
flattened key bytes `keys_`, per-key start offsets `start_`, filter bytes
computed so far `result_`, and per-filter offsets `filter_offsets_`.
(`tmp_keys_` is a scratch vector local to `GenerateFilter`.) -/
structure FilterBlockBuilder where
  keys : List Nat
  start : List Nat
  result : List Nat
  filterOffsets : List Nat

namespace FilterBlockBuilder

/-- The freshly constructed builder: all buffers empty. -/
def init : FilterBlockBuilder := ⟨[], [], [], []⟩

/-- `FilterBlockBuilder::AddKey`: record the key's start, append its bytes. -/
def AddKey (fb : FilterBlockBuilder) (key : List Nat) : FilterBlockBuilder :=
  { fb with start := fb.start ++ [fb.keys.length], keys := fb.keys ++ key }

/-- The key-reconstruction loop of `GenerateFilter`: after
`start_.push_back(keys_.size())`, entry `i` is
`Slice(keys_.data() + start_[i], start_[i+1] - start_[i])`.  Rendered as a
recursion over the (extended) start-offset list. -/
def sliceKeys (keys : List Nat) : List Nat → Nat → List (List Nat)
  | [], _ => []
  | [a], total => [slice keys a total]
  | a :: b :: rest, total => slice keys a b :: sliceKeys keys (b :: rest) total

/-- `FilterBlockBuilder::GenerateFilter`: with no pending keys push the
current result size as a (zero-length) filter offset; otherwise reconstruct
the pending keys, push the offset, append `policy->CreateFilter(...)` to the
result and clear the pending key buffers. -/
def GenerateFilter (P : FilterPolicyM) (fb : FilterBlockBuilder) :
    FilterBlockBuilder :=
  if fb.start.length = 0 then
    { fb with filterOffsets := fb.filterOffsets ++ [fb.result.length] }
  else
    let tmpKeys := sliceKeys fb.keys fb.start fb.keys.length
    { fb with
      filterOffsets := fb.filterOffsets ++ [fb.result.length],
      result := fb.result ++ P.create tmpKeys,
      keys := [], start := [] }

/-- The `while (filter_index > filter_offsets_.size()) GenerateFilter();`
loop of `StartBlock`, rendered with an explicit iteration count: each
`GenerateFilter` call grows `filter_offsets_` by exactly one entry, so the
loop body runs `filter_index - filter_offsets_.size()` times. -/
def genLoop (P : FilterPolicyM) (fb : FilterBlockBuilder) : Nat →
    FilterBlockBuilder
  | 0 => fb
  | n + 1 => genLoop P (GenerateFilter P fb) n

/-- `FilterBlockBuilder::StartBlock(block_offset)`:
`filter_index = block_offset / kFilterBase`, then generate filters until
`filter_offsets_.size()` reaches it. -/
def StartBlock (P : FilterPolicyM) (fb : FilterBlockBuilder)
    (blockOffset : Nat) : FilterBlockBuilder :=
  genLoop P fb (blockOffset / kFilterBase - fb.filterOffsets.length)

/-- `FilterBlockBuilder::Finish`: flush pending keys, then append every
filter offset as fixed32, the offset-array start as fixed32, and the single
byte `kFilterBaseLg`. -/
def Finish (P : FilterPolicyM) (fb : FilterBlockBuilder) : List Nat :=
  let fb := if fb.start.length = 0 then fb else GenerateFilter P fb
  let arrayOffset := fb.result.length
  fb.result ++ (fb.filterOffsets.map putFixed32).flatten
    ++ putFixed32 arrayOffset ++ [kFilterBaseLg]

end FilterBlockBuilder

/-- State of `FilterBlockReader` (`src/table/filter_block.h`):
`contents` is the full filter-block slice (`data_` points at its head in the
C++), `offsetStart` is `offset_ - data_`, plus `num_` and `base_lg_`. -/
structure FilterBlockReader where
  contents : List Nat
  offsetStart : Nat
  num : Nat
  baseLg : Nat

namespace FilterBlockReader

/-- The `FilterBlockReader` constructor of `src/table/filter_block.cc`:
require at least 5 bytes, read `base_lg_` from the last byte, read the
offset-array start from the trailing fixed32 and require it to fit; on any
failure leave `num_ = 0` (so every probe falls through to `true`). -/
def make (contents : List Nat) : FilterBlockReader :=
  let n := contents.length
  if n < 5 then ⟨contents, 0, 0, 0⟩
  else
    let baseLg := contents.getD (n - 1) 0
    let lastWord := decodeFixed32 contents (n - 5)
    if n - 5 < lastWord then ⟨contents, 0, 0, baseLg⟩
    else ⟨contents, lastWord, (n - 5 - lastWord) / 4, baseLg⟩

/-- `FilterBlockReader::KeyMayMatch(block_offset, key)` of
`src/table/filter_block.cc`: locate the window's `[start, limit)` pair in the
offset array; well-formed pairs are handed to the policy, an equal pair is an
empty filter matching nothing, and everything else is treated as a potential
match. -/
def KeyMayMatch (P : FilterPolicyM) (r : FilterBlockReader)
    (blockOffset : Nat) (key : List Nat) : Bool :=
  let index := blockOffset >>> r.baseLg
  if index < r.num then
    let start := decodeFixed32 r.contents (r.offsetStart + 4 * index)
    let limit := decodeFixed32 r.contents (r.offsetStart + 4 * index + 4)
    if start ≤ limit ∧ limit ≤ r.offsetStart then
      P.mayMatch key (slice r.contents start limit)
    else if start = limit then
      false
    else
      true
  else true

end FilterBlockReader

/-! ## Block builder (`src/table/block_builder.h`, `src/unnamed/part_001`)

`BlockBuilder::Add` is embedded from the source excerpt in
`src/unnamed/part_001`; the constructor, `Reset`, `Finish` and
`CurrentSizeEstimate` bodies are not among the sources and are modelled from
spec section 4.D. -/

/-- Length of the longest common byte prefix: the
`while (shared < min_length && last_key_piece[shared] == key[shared])`
loop of `BlockBuilder::Add`. -/
def lcp : List Nat → List Nat → Nat
  | a :: as, b :: bs => if a = b then lcp as bs + 1 else 0
  | _, _ => 0

/-- State of `BlockBuilder` (`src/table/block_builder.h`).  The C++ builder
reads `options_->block_restart_interval` through a pointer; the model keeps
the interval as a field (the index builder's copy is fixed to 1). -/
structure BlockBuilder where
  restartInterval : Nat
  buffer : List Nat
  restarts : List Nat
  counter : Nat
  finished : Bool
  lastKey : List Nat

namespace BlockBuilder

/-- Modelled from the spec: `reset()` / construction (section 4.D)  —
empty buffer, restart array `[0]`, counter 0, empty last key. -/
def reset (restartInterval : Nat) : BlockBuilder :=
  ⟨restartInterval, [], [0], 0, false, []⟩

/-- `BlockBuilder::Add(key, value)` from `src/unnamed/part_001`: below the
restart interval share the longest common prefix with the previous key,
otherwise open a new restart point; then emit the three varint32 lengths,
the key suffix and the value. -/
def Add (bb : BlockBuilder) (key value : List Nat) : BlockBuilder :=
  let p :=
    if bb.counter < bb.restartInterval then (bb, lcp bb.lastKey key)
    else
      let bb' := { bb with
        restarts := bb.restarts ++ [bb.buffer.length]
        counter := 0 }
      (bb', 0)
  let bb := p.1
  let shared := p.2
  let nonShared := key.length - shared
  { bb with
    buffer := bb.buffer ++ putVarint shared ++ putVarint nonShared
      ++ putVarint value.length ++ key.drop shared ++ value,
    lastKey := key,
    counter := bb.counter + 1 }

/-- Modelled from the spec: `finish()` (section 4.D) — append each restart
as a little-endian u32 followed by the restart count, and return the block
payload. -/
def Finish (bb : BlockBuilder) : List Nat :=
  bb.buffer ++ (bb.restarts.map putFixed32).flatten
    ++ putFixed32 bb.restarts.length

/-- Modelled from the spec: `current_size_estimate()` (section 4.D):
`len(buffer) + 4·(restarts.len + 1)`. -/
def CurrentSizeEstimate (bb : BlockBuilder) : Nat :=
  bb.buffer.length + 4 * (bb.restarts.length + 1)

/-- `BlockBuilder::empty()`: the buffer holds no entries. -/
def empty (bb : BlockBuilder) : Bool := bb.buffer.isEmpty

end BlockBuilder

/-! ## Bytewise comparator (modelled from spec section 4.G.1; the comparator
implementation is not among the sources). -/

/-- Modelled from the spec: `find_shortest_separator(a, b)` of the bytewise
comparator — find the first differing byte index `i`; if `a[i] < 0xff` and
`a[i] + 1 < b[i]`, truncate `a` to `i + 1` bytes and increment the last;
otherwise leave `a` unchanged. -/
def findShortestSeparator : List Nat → List Nat → List Nat
  | [], _ => []
  | a :: as, [] => a :: as
  | a :: as, b :: bs =>
    if a = b then a :: findShortestSeparator as bs
    else if a < 255 ∧ a + 1 < b then [a + 1]
    else a :: as

/-- Modelled from the spec: `find_short_successor(a)` of the bytewise
comparator — increment the first byte below `0xff` and truncate there; a
string of all `0xff` bytes is left unchanged. -/
def findShortSuccessor : List Nat → List Nat
  | [] => []
  | a :: as => if a < 255 then [a + 1] else a :: findShortSuccessor as

/-! ## Table builder (`src/unnamed/part_000`, i.e. `table_builder.cc`)

The file sink is the byte list `file` (its `Append` never fails in the
model, matching the claims' "no sink errors" scope; the `ok()` checks of the
source are kept).  The snappy compressor and the CRC function are external
collaborators carried in `Env`. -/

/-- `CompressionType` of the options (`kNoCompression`/`kSnappyCompression`). -/
inductive CompressionTy
  | noCompression
  | snappyCompression
deriving DecidableEq

/-- The recognized `Options` fields used by the embedded code. -/
structure OptionsM where
  blockSize : Nat
  blockRestartInterval : Nat
  compression : CompressionTy
  filterPolicy : Option FilterPolicyM

/-- Host collaborators: `port::Snappy_Compress` (returning `none` when
compression is unsupported or gives up) and the CRC32C value function over
`payload ++ [type]` (`crc32c::Value` extended over the type byte). -/
structure Env where
  compress : List Nat → Option (List Nat)
  crc : List Nat → Nat

/-- Modelled from the spec: `crc32c::Mask` (section 4.G.4:
`((c >> 15) | (c << 17)) + 0xa282ead8` in `uint32_t` arithmetic);
`util/crc32c.h` is not among the sources. -/
def maskCrc (c : Nat) : Nat :=
  (((c % 2^32) >>> 15) ||| (((c % 2^32) <<< 17) % 2^32) + 0xa282ead8) % 2^32

/-- `kBlockTrailerSize = 5`: one compression-type byte plus a fixed32 CRC. -/
def blockTrailer (env : Env) (contents : List Nat) (ctype : Nat) : List Nat :=
  ctype :: putFixed32 (maskCrc (env.crc (contents ++ [ctype])))

/-- Modelled from the spec: `BlockHandle::EncodeTo` (section 4.F) — offset
and size as two varint64s (`table/format.cc` is not among the sources). -/
def encodeHandle (h : Nat × Nat) : List Nat :=
  putVarint h.1 ++ putVarint h.2

/-- Modelled from the spec: `Footer::EncodeTo` (sections 3 and 4.F) — the
two handles, zero-padded to 40 bytes, then the magic
`0xdb4775248b80fb57` as a little-endian fixed64 (`table/format.cc` is not
among the sources). -/
def encodeFooter (metaHandle indexHandle : Nat × Nat) : List Nat :=
  let hs := encodeHandle metaHandle ++ encodeHandle indexHandle
  hs ++ List.replicate (40 - hs.length) 0
    ++ putFixed32 0x8b80fb57 ++ putFixed32 0xdb477524

/-- `TableBuilder::Rep` of `src/unnamed/part_000` (plus the sink bytes
`file`, standing for the `WritableFile`). -/
structure TableRep where
  options : OptionsM
  offset : Nat
  ok : Bool
  dataBlock : BlockBuilder
  indexBlock : BlockBuilder
  lastKey : List Nat
  numEntries : Nat
  closed : Bool
  filterBlock : Option FilterBlockBuilder
  pendingIndexEntry : Bool
  pendingHandle : Nat × Nat
  file : List Nat

namespace TableBuilder

/-- The `TableBuilder` constructor: build the `Rep` (index builder with
restart interval 1, filter builder iff a policy is configured) and call
`filter_block->StartBlock(0)` when a filter policy is present. -/
def mk (opts : OptionsM) : TableRep :=
  { options := opts
    offset := 0
    ok := true
    dataBlock := BlockBuilder.reset opts.blockRestartInterval
    indexBlock := BlockBuilder.reset 1
    lastKey := []
    numEntries := 0
    closed := false
    filterBlock :=
      match opts.filterPolicy with
      | some P => some (FilterBlockBuilder.StartBlock P FilterBlockBuilder.init 0)
      | none => none
    pendingIndexEntry := false
    pendingHandle := (0, 0)
    file := [] }

/-- `TableBuilder::WriteRawBlock(block_contents, type, handle)`: record the
handle at the current offset, append the contents and the 5-byte trailer to
the file, and advance `offset` by `contents.size() + kBlockTrailerSize`. -/
def WriteRawBlock (env : Env) (contents : List Nat) (ctype : Nat)
    (r : TableRep) : (Nat × Nat) × TableRep :=
  let handle := (r.offset, contents.length)
  let trailer := blockTrailer env contents ctype
  (handle,
   { r with
     file := r.file ++ contents ++ trailer,
     offset := r.offset + contents.length + 5,
     ok := true })

/-- The compression decision of `TableBuilder::WriteBlock`: under snappy,
accept the compressed form only when
`compressed.size() < raw.size() - raw.size() / 8`; otherwise (or with
compression off) store the raw bytes as `kNoCompression` (type byte 0). -/
def writeBlockPayload (env : Env) (c : CompressionTy) (raw : List Nat) :
    List Nat × Nat :=
  match c with
  | .noCompression => (raw, 0)
  | .snappyCompression =>
    match env.compress raw with
    | some compressed =>
      if compressed.length < raw.length - raw.length / 8 then (compressed, 1)
      else (raw, 0)
    | none => (raw, 0)

/-- `TableBuilder::WriteBlock(block, handle)`: finish the builder, pick the
stored payload and type, write the raw block, and reset the builder. -/
def WriteBlock (env : Env) (r : TableRep) (bb : BlockBuilder) :
    (Nat × Nat) × TableRep × BlockBuilder :=
  let raw := bb.Finish
  let pt := writeBlockPayload env r.options.compression raw
  let hr := WriteRawBlock env pt.1 pt.2 r
  (hr.1, hr.2, BlockBuilder.reset bb.restartInterval)

/-- `TableBuilder::Flush`: no-op on a latched error or an empty data block;
otherwise write the data block into `pending_handle`, set
`pending_index_entry`, flush the sink, and notify the filter builder of the
new offset. -/
def Flush (env : Env) (r : TableRep) : TableRep :=
  if !r.ok then r
  else if r.dataBlock.buffer.isEmpty then r
  else
    let hrb := WriteBlock env r r.dataBlock
    let r := { hrb.2.1 with dataBlock := hrb.2.2, pendingHandle := hrb.1 }
    let r := if r.ok then { r with pendingIndexEntry := true } else r
    match r.filterBlock, r.options.filterPolicy with
    | some fb, some P =>
      { r with filterBlock := some (fb.StartBlock P r.offset) }
    | _, _ => r

/-- `TableBuilder::Add(key, value)`: emit the pending index entry using the
shortest separator, feed the filter builder, append to the data block, and
flush once the size estimate reaches `options.block_size`. -/
def Add (env : Env) (key value : List Nat) (r : TableRep) : TableRep :=
  if !r.ok then r
  else
    let r :=
      if r.pendingIndexEntry then
        let sep := findShortestSeparator r.lastKey key
        { r with
          lastKey := sep,
          indexBlock := r.indexBlock.Add sep (encodeHandle r.pendingHandle),
          pendingIndexEntry := false }
      else r
    let r :=
      match r.filterBlock with
      | some fb => { r with filterBlock := some (fb.AddKey key) }
      | none => r
    let r := { r with
      lastKey := key,
      numEntries := r.numEntries + 1,
      dataBlock := r.dataBlock.Add key value }
    if r.options.blockSize ≤ r.dataBlock.CurrentSizeEstimate then Flush env r
    else r

/-- The byte string `"filter."` prefixed to the policy name in the
meta-index block. -/
def filterDot : List Nat := [102, 105, 108, 116, 101, 114, 46]

/-- The "Write filter block" section of `TableBuilder::Finish`: when a
filter builder is present and no error is latched, write its finished
contents uncompressed into `filter_block_handle`. -/
def finishFilterStep (env : Env) (r : TableRep) : (Nat × Nat) × TableRep :=
  match r.filterBlock, r.options.filterPolicy with
  | some fb, some P =>
    if r.ok then WriteRawBlock env (fb.Finish P) 0 r
    else ((0, 0), r)
  | _, _ => ((0, 0), r)

/-- The local `meta_index_block` of `TableBuilder::Finish`: built with the
table's options, holding the single `"filter." ++ Name()` entry when a
filter policy is configured. -/
def metaIndexBlockOf (r : TableRep) (filterHandle : Nat × Nat) : BlockBuilder :=
  match r.options.filterPolicy with
  | some P => (BlockBuilder.reset r.options.blockRestartInterval).Add
      (filterDot ++ P.name) (encodeHandle filterHandle)
  | none => BlockBuilder.reset r.options.blockRestartInterval

/-- The "Write metaindex block" section of `TableBuilder::Finish`. -/
def finishMetaStep (env : Env) (filterHandle : Nat × Nat) (r : TableRep) :
    (Nat × Nat) × TableRep :=
  if r.ok then
    ((WriteBlock env r (metaIndexBlockOf r filterHandle)).1,
     (WriteBlock env r (metaIndexBlockOf r filterHandle)).2.1)
  else ((0, 0), r)

/-- The pending-entry absorption at the head of the "Write index block"
section: if `pending_index_entry` is still set, emit the final index entry
under the short successor of the last key. -/
def absorbPendingEntry (r : TableRep) : TableRep :=
  if r.pendingIndexEntry then
    { r with
      lastKey := findShortSuccessor r.lastKey,
      indexBlock := r.indexBlock.Add (findShortSuccessor r.lastKey)
        (encodeHandle r.pendingHandle),
      pendingIndexEntry := false }
  else r

/-- The "Write index block" section of `TableBuilder::Finish`. -/
def finishIndexStep (env : Env) (r : TableRep) : (Nat × Nat) × TableRep :=
  if r.ok then
    ((WriteBlock env (absorbPendingEntry r)
        (absorbPendingEntry r).indexBlock).1,
     { (WriteBlock env (absorbPendingEntry r)
          (absorbPendingEntry r).indexBlock).2.1 with
       indexBlock := (WriteBlock env (absorbPendingEntry r)
          (absorbPendingEntry r).indexBlock).2.2 })
  else ((0, 0), r)

/-- The "Write footer" section of `TableBuilder::Finish`. -/
def finishFooterStep (metaHandle indexHandle : Nat × Nat) (r : TableRep) :
    TableRep :=
  if r.ok then
    { r with
      file := r.file ++ encodeFooter metaHandle indexHandle,
      offset := r.offset + (encodeFooter metaHandle indexHandle).length }
  else r

/-- `TableBuilder::Finish`: flush the last data block, mark closed, write
the filter block (uncompressed), the meta-index block, the index block
(emitting the still-pending entry under the short successor of the last
key), and the footer.  Each section of the C++ function is a named step
above. -/
def Finish (env : Env) (r : TableRep) : TableRep :=
  let r := Flush env r
  let r := { r with closed := true }
  let p1 := finishFilterStep env r
  let p2 := finishMetaStep env p1.1 p1.2
  let p3 := finishIndexStep env p2.2
  finishFooterStep p2.1 p3.1 p3.2

/-- `TableBuilder::FileSize()`: the current `offset`. -/
def FileSize (r : TableRep) : Nat := r.offset

/-- Number of filter segments already emitted by the filter block builder
(`filter_offsets_.size()`; 0 when no filter policy is configured). -/
def filterSegCount (r : TableRep) : Nat :=
  match r.filterBlock with
  | some fb => fb.filterOffsets.length
  | none => 0

end TableBuilder

/-! ## Filter-block call traces

`TableBuilder` drives the filter builder through the call pattern
`StartBlock(0) (AddKey* StartBlock(off))* Finish` (see the constructor,
`Add` and `Flush` in `src/unnamed/part_000`, and the regexp in
`src/table/filter_block.h`): each written data block contributes its keys
followed by `StartBlock` at the file offset just past the block's trailer.
A trace is a list of `(keys, endOffset)` pairs; block `i` starts at the
previous block's end offset (the first at 0). -/

/-- Feed a list of keys to the filter builder in order. -/
def addKeys (fb : FilterBlockBuilder) (ks : List (List Nat)) :
    FilterBlockBuilder :=
  ks.foldl FilterBlockBuilder.AddKey fb

/-- Run the filter builder over a table-builder trace (without `Finish`). -/
def runBlocks (P : FilterPolicyM) (bs : List (List (List Nat) × Nat)) :
    FilterBlockBuilder :=
  bs.foldl (fun fb p => (addKeys fb p.1).StartBlock P p.2)
    (FilterBlockBuilder.init.StartBlock P 0)

/-- The finished filter-block contents of a table-builder trace. -/
def buildFilterBlock (P : FilterPolicyM) (bs : List (List (List Nat) × Nat)) :
    List Nat :=
  (runBlocks P bs).Finish P

/-- File offset at which block `i` of a trace starts (`s` is the offset at
which the first listed block starts; out-of-range indices return the last
end offset). -/
def blockStartAt (s : Nat) : List (List (List Nat) × Nat) → Nat → Nat
  | _, 0 => s
  | [], _ + 1 => s
  | p :: rest, i + 1 => blockStartAt p.2 rest i

/-- Strictly increasing end offsets along a trace, starting above `s`
(each data block plus its 5-byte trailer occupies at least one byte). -/
def chainOk (s : Nat) : List (List (List Nat) × Nat) → Bool
  | [] => true
  | p :: rest => decide (s < p.2) && chainOk p.2 rest

/-! ### Specification-level view of the filter builder

The builder's observable content is the list `F` of emitted filters together
with the list `pend` of keys accumulated since the last emission.
`FBRel` relates the byte-level builder state to this view. -/

/-- One `GenerateFilter` step on the specification view: emit
`create(pend)` (the empty filter when no keys are pending) and clear the
pending keys. -/
def specGen (P : FilterPolicyM) (st : List (List Nat) × List (List Nat)) :
    List (List Nat) × List (List Nat) :=
  (st.1 ++ [if st.2.isEmpty then [] else P.create st.2], [])

/-- Iterated `GenerateFilter` on the specification view. -/
def specLoop (P : FilterPolicyM) (st : List (List Nat) × List (List Nat)) :
    Nat → List (List Nat) × List (List Nat)
  | 0 => st
  | n + 1 => specLoop P (specGen P st) n

/-- `StartBlock` on the specification view. -/
def specStart (P : FilterPolicyM) (st : List (List Nat) × List (List Nat))
    (blockOffset : Nat) : List (List Nat) × List (List Nat) :=
  specLoop P st (blockOffset / kFilterBase - st.1.length)

/-- A full table-builder trace on the specification view. -/
def specTrace (P : FilterPolicyM) (bs : List (List (List Nat) × Nat)) :
    List (List Nat) × List (List Nat) :=
  bs.foldl (fun st p => specStart P (st.1, st.2 ++ p.1) p.2)
    (specStart P ([], []) 0)

/-- The filters present in the finished filter block of a trace
(`Finish` emits one final filter when keys are still pending). -/
def finalFilters (P : FilterPolicyM) (bs : List (List (List Nat) × Nat)) :
    List (List Nat) :=
  let st := specTrace P bs
  if st.2.isEmpty then st.1 else st.1 ++ [P.create st.2]

/-- Byte-level encoding of a finished filter block holding exactly the
filters `F`: concatenated filters, their offsets as fixed32, the
offset-array start as fixed32, and the `base_lg` byte. -/
def encodeFB (F : List (List Nat)) : List Nat :=
  F.flatten ++ ((offsetsOf 0 F).map putFixed32).flatten
    ++ putFixed32 F.flatten.length ++ [kFilterBaseLg]

/-- Refinement relation between the byte-level filter builder state and its
specification view `(F, pend)`. -/
def FBRel (fb : FilterBlockBuilder) (F pend : List (List Nat)) : Prop :=
  fb.result = F.flatten ∧ fb.filterOffsets = offsetsOf 0 F ∧
    fb.keys = pend.flatten ∧ fb.start = offsetsOf 0 pend

/-- A key `k` whose source block starts in window `w` is accounted for by
the specification state `st = (F, pend)`: either window `w`'s filter has
already been emitted and accepts `k`, or window `w` is the current one and
`k` is still pending. -/
def coveredKey (P : FilterPolicyM) (st : List (List Nat) × List (List Nat))
    (w : Nat) (k : List Nat) : Prop :=
  (w < st.1.length ∧ P.mayMatch k (st.1.getD w []) = true)
    ∨ (w = st.1.length ∧ k ∈ st.2)

/-- The invariant of `src/unnamed/part_000` line 46:
`r->pending_index_entry is true only if data_block is empty`. -/
def PendingInv (r : TableRep) : Prop :=
  r.pendingIndexEntry = true → r.dataBlock.buffer = []

/-- A degenerate filter policy used as a concrete instance in witnesses:
every filter is empty and every probe is a potential match. -/
def truePolicy : FilterPolicyM :=
  ⟨[], fun _ => [], fun _ _ => true⟩

/-! # Lemmas and theorems -/

/-! ## Fixed-width coding -/

theorem length_putFixed32 (v : Nat) : (putFixed32 v).length = 4 := rfl

theorem decodeFixed32_cons (a b c d : Nat) (B : List Nat) :
    decodeFixed32 (a :: b :: c :: d :: B) 0 =
      a + 256 * b + 65536 * c + 16777216 * d := rfl

theorem decode_putFixed32 (v : Nat) (B : List Nat) :
    decodeFixed32 (putFixed32 v ++ B) 0 = v % 2^32 := by
  show decodeFixed32 (v % 256 :: v / 256 % 256 :: v / 65536 % 256 ::
    v / 16777216 % 256 :: B) 0 = v % 2^32
  rw [decodeFixed32_cons]
  omega

theorem getD_append_add {α : Type} (A l : List α) (j : Nat) (d : α) :
    (A ++ l).getD (A.length + j) d = l.getD j d := by
  rw [List.getD_append_right _ _ _ _ (Nat.le_add_right _ _)]
  congr 1
  omega

theorem decodeFixed32_append (A l : List Nat) (p : Nat) :
    decodeFixed32 (A ++ l) (A.length + p) = decodeFixed32 l p := by
  unfold decodeFixed32
  rw [show A.length + p + 1 = A.length + (p + 1) by omega,
      show A.length + p + 2 = A.length + (p + 2) by omega,
      show A.length + p + 3 = A.length + (p + 3) by omega,
      getD_append_add, getD_append_add, getD_append_add, getD_append_add]

/-- Reading the `j`-th value of a fixed32-encoded array embedded after a
preamble `R` recovers that value (mod 2^32). -/
theorem decode_fixed32_array (vs : List Nat) :
    ∀ (R B : List Nat) (j : Nat), j < vs.length →
      decodeFixed32 (R ++ (vs.map putFixed32).flatten ++ B) (R.length + 4 * j)
        = vs.getD j 0 % 2^32 := by
  induction vs with
  | nil => intro R B j hj; simp at hj
  | cons v rest ih =>
    intro R B j hj
    cases j with
    | zero =>
      have hre : R ++ ((v :: rest).map putFixed32).flatten ++ B
          = R ++ (putFixed32 v ++ ((rest.map putFixed32).flatten ++ B)) := by
        simp
      rw [Nat.mul_zero, hre, decodeFixed32_append, decode_putFixed32]
      simp
    | succ j =>
      have hre : R ++ ((v :: rest).map putFixed32).flatten ++ B
          = (R ++ putFixed32 v) ++ (rest.map putFixed32).flatten ++ B := by
        simp
      have hlen : R.length + 4 * (j + 1) = (R ++ putFixed32 v).length + 4 * j := by
        simp [length_putFixed32]
        omega
      rw [hre, hlen, ih (R ++ putFixed32 v) B j (by simpa using hj)]
      simp

/-! ## Cumulative offsets -/

theorem offsetsOf_length (a : Nat) (F : List (List Nat)) :
    (offsetsOf a F).length = F.length := by
  induction F generalizing a with
  | nil => rfl
  | cons c rest ih => simp [offsetsOf, ih]

theorem offsetsOf_append_single (a : Nat) (F : List (List Nat)) (x : List Nat) :
    offsetsOf a (F ++ [x]) = offsetsOf a F ++ [a + F.flatten.length] := by
  induction F generalizing a with
  | nil => simp [offsetsOf]
  | cons c rest ih =>
    show offsetsOf a (c :: (rest ++ [x])) = _
    rw [offsetsOf, ih, offsetsOf, List.cons_append]
    congr 3
    simp
    omega

theorem offsetsOf_getD (a : Nat) (F : List (List Nat)) (j : Nat)
    (hj : j < F.length) :
    (offsetsOf a F).getD j 0 = a + (F.take j).flatten.length := by
  induction F generalizing a j with
  | nil => simp at hj
  | cons c rest ih =>
    cases j with
    | zero => simp [offsetsOf]
    | succ j =>
      have := ih (a + c.length) j (by simpa using hj)
      simp only [offsetsOf, List.getD_cons_succ, this, List.take_succ_cons,
        List.flatten_cons, List.length_append]
      omega

theorem flatten_take_le (F : List (List Nat)) (j : Nat) :
    (F.take j).flatten.length ≤ F.flatten.length := by
  calc (F.take j).flatten.length
      ≤ (F.take j).flatten.length + (F.drop j).flatten.length :=
        Nat.le_add_right _ _
    _ = ((F.take j) ++ (F.drop j)).flatten.length := by
        rw [List.flatten_append, List.length_append]
    _ = F.flatten.length := by rw [List.take_append_drop]

theorem flatten_take_succ (F : List (List Nat)) (w : Nat) (hw : w < F.length) :
    (F.take (w + 1)).flatten.length
      = (F.take w).flatten.length + (F.getD w []).length := by
  have h1 : F[w]? = some (F.getD w []) := by
    rw [List.getD_eq_getElem _ _ hw]
    exact List.getElem?_eq_getElem hw
  rw [List.take_succ, h1]
  simp

/-- The value list `offsets ++ [array_start]` read by the filter-block
reader: entry `j ≤ F.length` is the cumulative size of the first `j`
filters. -/
theorem offsetsExt_getD (F : List (List Nat)) (j : Nat) (hj : j ≤ F.length) :
    (offsetsOf 0 F ++ [F.flatten.length]).getD j 0
      = (F.take j).flatten.length := by
  rcases Nat.lt_or_ge j F.length with h | h
  · rw [List.getD_append _ _ _ _ (by rw [offsetsOf_length]; exact h),
      offsetsOf_getD 0 F j h, Nat.zero_add]
  · have hj' : j = F.length := le_antisymm hj h
    subst hj'
    rw [List.getD_append_right _ _ _ _ (by rw [offsetsOf_length])]
    rw [offsetsOf_length]
    simp [List.take_of_length_le]

theorem offsetsOf_mem_le (a : Nat) (F : List (List Nat)) :
    ∀ v ∈ offsetsOf a F, v ≤ a + F.flatten.length := by
  induction F generalizing a with
  | nil => simp [offsetsOf]
  | cons c rest ih =>
    intro v hv
    rcases List.mem_cons.mp hv with rfl | hv
    · omega
    · have := ih (a + c.length) v hv
      simp only [List.flatten_cons, List.length_append]
      omega

theorem offsetsExt_lt (F : List (List Nat)) (v : Nat)
    (hv : v ∈ offsetsOf 0 F ++ [F.flatten.length]) :
    v ≤ F.flatten.length := by
  rcases List.mem_append.mp hv with h | h
  · have := offsetsOf_mem_le 0 F v h
    omega
  · rw [List.mem_singleton] at h
    omega

/-! ## Byte-range views -/

theorem slice_append (R B : List Nat) (a b : Nat) (hb : b ≤ R.length) :
    slice (R ++ B) a b = slice R a b := by
  unfold slice
  rw [List.drop_append_eq_append_drop, List.take_append_eq_append_take]
  rw [show b - a - (List.drop a R).length = 0 by
    rw [List.length_drop]; omega]
  simp

theorem slice_flatten_at (F : List (List Nat)) (w : Nat) (hw : w < F.length) :
    slice F.flatten ((F.take w).flatten.length) ((F.take (w + 1)).flatten.length)
      = F.getD w [] := by
  have hdrop : F.drop w = F.getD w [] :: F.drop (w + 1) := by
    rw [List.getD_eq_getElem _ _ hw]
    exact List.drop_eq_getElem_cons hw
  have hdecomp : F.flatten
      = (F.take w).flatten ++ (F.getD w [] ++ (F.drop (w + 1)).flatten) := by
    conv_lhs => rw [← List.take_append_drop w F]
    rw [List.flatten_append, hdrop, List.flatten_cons]
  unfold slice
  rw [flatten_take_succ F w hw, Nat.add_sub_cancel_left, hdecomp,
    List.drop_left, List.take_left]

/-! ## Bloom filter: bit-level lemmas -/

namespace BloomFilterPolicy

theorem getBitAt_iff_testBit (l : List Nat) (i b : Nat) :
    getBitAt l i b = true ↔ (l.getD i 0).testBit b := by
  unfold getBitAt
  rw [bne_iff_ne, Nat.one_shiftLeft, Nat.and_two_pow]
  cases h : (l.getD i 0).testBit b <;> simp [h, (Nat.two_pow_pos b).ne']

theorem length_setBitAt (l : List Nat) (i b : Nat) :
    (setBitAt l i b).length = l.length := List.length_set _ _ _

theorem getBitAt_setBitAt_mono (l : List Nat) (i b j c : Nat)
    (h : getBitAt l j c = true) : getBitAt (setBitAt l i b) j c = true := by
  rw [getBitAt_iff_testBit] at h ⊢
  unfold setBitAt
  rcases eq_or_ne i j with rfl | hij
  · rcases Nat.lt_or_ge i l.length with hi | hi
    · rw [List.getD_eq_getElem?_getD, List.getElem?_set_self hi]
      simp only [Option.getD_some]
      rw [Nat.one_shiftLeft, Nat.testBit_or, h]
      simp
    · rw [List.set_eq_of_length_le hi]
      exact h
  · rw [List.getD_eq_getElem?_getD, List.getElem?_set_ne hij,
      ← List.getD_eq_getElem?_getD]
    exact h

theorem setBitAt_self (l : List Nat) (i b : Nat) (hi : i < l.length) :
    getBitAt (setBitAt l i b) i b = true := by
  rw [getBitAt_iff_testBit]
  unfold setBitAt
  rw [List.getD_eq_getElem?_getD, List.getElem?_set_self hi]
  simp only [Option.getD_some]
  rw [Nat.one_shiftLeft, Nat.testBit_or, Nat.testBit_two_pow_self]
  simp

theorem getD_setBitAt_ne (l : List Nat) (i b j d : Nat) (hij : i ≠ j) :
    (setBitAt l i b).getD j d = l.getD j d := by
  unfold setBitAt
  rw [List.getD_eq_getElem?_getD, List.getElem?_set_ne hij,
    ← List.getD_eq_getElem?_getD]

theorem length_setBits (bits base h delta n : Nat) : ∀ dst : List Nat,
    (setBits bits base h delta n dst).length = dst.length := by
  induction n generalizing h with
  | zero => intro dst; rfl
  | succ j ih =>
    intro dst
    show (setBits bits base ((h + delta) % 2^32) delta j _).length = _
    rw [ih, length_setBitAt]

theorem setBits_mono (bits base delta n : Nat) : ∀ (h : Nat) (dst : List Nat)
    (j c : Nat), getBitAt dst j c = true →
    getBitAt (setBits bits base h delta n dst) j c = true := by
  induction n with
  | zero => intro h dst j c hset; exact hset
  | succ m ih =>
    intro h dst j c hset
    exact ih _ _ j c (getBitAt_setBitAt_mono _ _ _ _ _ hset)

theorem probeSeq_lt (bits delta n : Nat) (hb : 0 < bits) :
    ∀ h, ∀ pos ∈ probeSeq bits h delta n, pos < bits := by
  induction n with
  | zero => intro h pos hpos; simp [probeSeq] at hpos
  | succ m ih =>
    intro h pos hpos
    rcases List.mem_cons.mp hpos with rfl | hpos
    · exact Nat.mod_lt _ hb
    · exact ih _ pos hpos

theorem probe_eq_true_of (bits : Nat) (f : List Nat) (delta : Nat) :
    ∀ (n h : Nat),
      (∀ pos ∈ probeSeq bits h delta n,
        getBitAt f (pos / 8) (pos % 8) = true) →
      probe bits f h delta n = true := by
  intro n
  induction n with
  | zero => intro h _; rfl
  | succ m ih =>
    intro h H
    show (if getBitAt f ((h % bits) / 8) ((h % bits) % 8) then _ else false) = true
    rw [if_pos (H (h % bits) (List.mem_cons_self _ _))]
    exact ih _ fun pos hpos => H pos (List.mem_cons_of_mem _ hpos)

theorem setBits_sets (bits delta : Nat) : ∀ (n h : Nat) (dst : List Nat),
    (∀ pos ∈ probeSeq bits h delta n, pos / 8 < dst.length) →
    ∀ pos ∈ probeSeq bits h delta n,
      getBitAt (setBits bits 0 h delta n dst) (pos / 8) (pos % 8) = true := by
  intro n
  induction n with
  | zero => intro h dst _ pos hpos; simp [probeSeq] at hpos
  | succ m ih =>
    intro h dst hran pos hpos
    show getBitAt (setBits bits 0 ((h + delta) % 2^32) delta m
      (setBitAt dst (0 + (h % bits) / 8) ((h % bits) % 8))) _ _ = true
    rcases List.mem_cons.mp hpos with rfl | hpos
    · apply setBits_mono
      rw [Nat.zero_add]
      exact setBitAt_self _ _ _ (hran _ (List.mem_cons_self _ _))
    · apply ih _ _ _ pos hpos
      intro q hq
      rw [length_setBitAt]
      exact hran q (List.mem_cons_of_mem _ hq)

theorem setBits_preserves_getD (bits delta : Nat) : ∀ (n h : Nat)
    (dst : List Nat) (j : Nat),
    (∀ pos ∈ probeSeq bits h delta n, pos / 8 < j) →
    (setBits bits 0 h delta n dst).getD j 0 = dst.getD j 0 := by
  intro n
  induction n with
  | zero => intro h dst j _; rfl
  | succ m ih =>
    intro h dst j hran
    show (setBits bits 0 ((h + delta) % 2^32) delta m
      (setBitAt dst (0 + (h % bits) / 8) ((h % bits) % 8))).getD j 0 = _
    rw [ih _ _ j fun q hq => hran q (List.mem_cons_of_mem _ hq)]
    rw [Nat.zero_add]
    exact getD_setBitAt_ne _ _ _ _ _
      (Nat.ne_of_lt (hran _ (List.mem_cons_self _ _)))

/-! ## Bloom filter: `CreateFilter` structure -/

theorem bloomBytes_ge (bitsPerKey n : Nat) : 8 ≤ bloomBytes bitsPerKey n := by
  unfold bloomBytes
  split <;> omega

theorem bloomBytes_eq_max (bitsPerKey n : Nat) :
    bloomBytes bitsPerKey n = (max 64 (n * bitsPerKey) + 7) / 8 := by
  unfold bloomBytes
  congr 1
  split <;> omega

theorem createFilter_closed_eq (hash : List Nat → Nat) (bitsPerKey kNum : Nat)
    (keys : List (List Nat)) :
    CreateFilter hash bitsPerKey kNum keys [] =
      keys.foldl (fun d key =>
        setBits (bloomBytes bitsPerKey keys.length * 8) 0
          (hashDelta hash key).1 (hashDelta hash key).2 kNum d)
        (List.replicate (bloomBytes bitsPerKey keys.length) 0 ++ [kNum]) := rfl

theorem createFilter_dst_eq (hash : List Nat → Nat) (bitsPerKey kNum : Nat)
    (keys : List (List Nat)) (dst : List Nat) :
    CreateFilter hash bitsPerKey kNum keys dst =
      keys.foldl (fun d key =>
        setBits (bloomBytes bitsPerKey keys.length * 8) dst.length
          (hashDelta hash key).1 (hashDelta hash key).2 kNum d)
        (dst ++ List.replicate (bloomBytes bitsPerKey keys.length) 0
          ++ [kNum]) := rfl

theorem foldl_length_pres {α : Type} (f : List Nat → α → List Nat)
    (hf : ∀ d a, (f d a).length = d.length) :
    ∀ (ks : List α) (dst : List Nat), (ks.foldl f dst).length = dst.length := by
  intro ks
  induction ks with
  | nil => intro dst; rfl
  | cons a rest ih => intro dst; rw [List.foldl_cons, ih, hf]

theorem foldl_getBit_mono {α : Type} (f : List Nat → α → List Nat)
    (hf : ∀ d a j c, getBitAt d j c = true → getBitAt (f d a) j c = true) :
    ∀ (ks : List α) (dst : List Nat) (j c : Nat),
      getBitAt dst j c = true → getBitAt (ks.foldl f dst) j c = true := by
  intro ks
  induction ks with
  | nil => intro dst j c h; exact h
  | cons a rest ih => intro dst j c h; exact ih _ j c (hf _ _ _ _ h)

theorem foldl_getD_pres {α : Type} (f : List Nat → α → List Nat) (m : Nat)
    (hf : ∀ d a, (f d a).getD m 0 = d.getD m 0) :
    ∀ (ks : List α) (dst : List Nat), (ks.foldl f dst).getD m 0 = dst.getD m 0 := by
  intro ks
  induction ks with
  | nil => intro dst; rfl
  | cons a rest ih => intro dst; rw [List.foldl_cons, ih, hf]

theorem createFilter_closed_length (hash : List Nat → Nat)
    (bitsPerKey kNum : Nat) (keys : List (List Nat)) :
    (CreateFilter hash bitsPerKey kNum keys []).length
      = bloomBytes bitsPerKey keys.length + 1 := by
  rw [createFilter_closed_eq,
    foldl_length_pres _ (fun d a => length_setBits _ _ _ _ _ d)]
  simp

theorem createFilter_closed_getD (hash : List Nat → Nat)
    (bitsPerKey kNum : Nat) (keys : List (List Nat)) :
    (CreateFilter hash bitsPerKey kNum keys []).getD
      (bloomBytes bitsPerKey keys.length) 0 = kNum := by
  set B := bloomBytes bitsPerKey keys.length with hB
  have hBpos : 0 < B * 8 := by have := bloomBytes_ge bitsPerKey keys.length; omega
  rw [createFilter_closed_eq]
  rw [foldl_getD_pres _ B (fun d key => setBits_preserves_getD _ _ _ _ _ _
    (fun pos hpos => (Nat.div_lt_iff_lt_mul (by omega)).mpr
      (probeSeq_lt _ _ _ hBpos _ pos hpos)))]
  rw [List.getD_append_right _ _ _ _ (by simp), List.length_replicate]
  simp

theorem setBitAt_shift (A t : List Nat) (i b : Nat) :
    setBitAt (A ++ t) (A.length + i) b = A ++ setBitAt t i b := by
  unfold setBitAt
  rw [getD_append_add, List.set_append, if_neg (by omega),
    show A.length + i - A.length = i by omega]

theorem setBits_shift (bits delta n : Nat) : ∀ (h : Nat) (A t : List Nat),
    setBits bits A.length h delta n (A ++ t) = A ++ setBits bits 0 h delta n t := by
  induction n with
  | zero => intro h A t; rfl
  | succ m ih =>
    intro h A t
    show setBits bits A.length ((h + delta) % 2^32) delta m
        (setBitAt (A ++ t) (A.length + (h % bits) / 8) ((h % bits) % 8)) = _
    rw [setBitAt_shift, ih]
    show _ = A ++ setBits bits 0 ((h + delta) % 2^32) delta m
      (setBitAt t (0 + (h % bits) / 8) ((h % bits) % 8))
    rw [Nat.zero_add]

theorem foldl_setBits_shift (hash : List Nat → Nat) (bits kNum : Nat)
    (A : List Nat) :
    ∀ (ks : List (List Nat)) (t : List Nat),
      ks.foldl (fun d key => setBits bits A.length
          (hashDelta hash key).1 (hashDelta hash key).2 kNum d) (A ++ t)
        = A ++ ks.foldl (fun d key => setBits bits 0
            (hashDelta hash key).1 (hashDelta hash key).2 kNum d) t := by
  intro ks
  induction ks with
  | nil => intro t; rfl
  | cons a rest ih =>
    intro t
    rw [List.foldl_cons, List.foldl_cons, setBits_shift, ih]

theorem createFilter_append (hash : List Nat → Nat) (bitsPerKey kNum : Nat)
    (keys : List (List Nat)) (dst : List Nat) :
    CreateFilter hash bitsPerKey kNum keys dst
      = dst ++ CreateFilter hash bitsPerKey kNum keys [] := by
  rw [createFilter_dst_eq, createFilter_closed_eq, List.append_assoc]
  exact foldl_setBits_shift hash _ kNum dst keys _

/-- C9: `CreateFilter` is append-only with a fixed frame: the destination's
pre-existing bytes stay in place, and exactly
`ceil(max(64, n·bits_per_key)/8)` filter bytes plus one trailing byte
holding the probe count are appended. -/
theorem C9_bloom_create_frame (hash : List Nat → Nat) (bitsPerKey kNum : Nat)
    (keys : List (List Nat)) (dst : List Nat) :
    CreateFilter hash bitsPerKey kNum keys dst
        = dst ++ CreateFilter hash bitsPerKey kNum keys []
      ∧ (CreateFilter hash bitsPerKey kNum keys []).length
          = (max 64 (keys.length * bitsPerKey) + 7) / 8 + 1
      ∧ (CreateFilter hash bitsPerKey kNum keys []).getLast? = some kNum := by
  refine ⟨createFilter_append hash bitsPerKey kNum keys dst, ?_, ?_⟩
  · rw [createFilter_closed_length, bloomBytes_eq_max]
  · have hlen := createFilter_closed_length hash bitsPerKey kNum keys
    have hlt : bloomBytes bitsPerKey keys.length
        < (CreateFilter hash bitsPerKey kNum keys []).length := by omega
    rw [List.getLast?_eq_getElem?, hlen, Nat.add_sub_cancel,
      List.getElem?_eq_getElem hlt,
      ← List.getD_eq_getElem _ 0 hlt, createFilter_closed_getD]

/-- The Bloom no-false-negative property, shared by the C2 claim theorem
and by witnesses that instantiate generic-policy theorems with Bloom. -/
theorem bloom_nfn (hash : List Nat → Nat)
    (bitsPerKey kNum : Nat) (hk30 : kNum ≤ 30)
    (keys : List (List Nat)) (key : List Nat) (hmem : key ∈ keys) :
    KeyMayMatch hash key (CreateFilter hash bitsPerKey kNum keys []) = true := by
  set f := CreateFilter hash bitsPerKey kNum keys [] with hf
  set B := bloomBytes bitsPerKey keys.length with hB
  have hB8 : 8 ≤ B := bloomBytes_ge bitsPerKey keys.length
  have hlen : f.length = B + 1 := createFilter_closed_length hash bitsPerKey kNum keys
  have hgk : f.getD (f.length - 1) 0 = kNum := by
    rw [hlen, Nat.add_sub_cancel]
    exact createFilter_closed_getD hash bitsPerKey kNum keys
  show (if f.length < 2 then false
    else if 30 < f.getD (f.length - 1) 0 then true
    else probe ((f.length - 1) * 8) f (hashDelta hash key).1
      (hashDelta hash key).2 (f.getD (f.length - 1) 0)) = true
  rw [if_neg (by omega), hgk, if_neg (by omega), hlen, Nat.add_sub_cancel]
  apply probe_eq_true_of
  intro pos hpos
  obtain ⟨s, t, rfl⟩ := List.append_of_mem hmem
  have hlen0 : (List.replicate B 0 ++ [kNum]).length = B + 1 := by simp
  rw [hf, createFilter_closed_eq, List.foldl_append, List.foldl_cons]
  apply foldl_getBit_mono _ (fun d a j c hb => setBits_mono _ _ _ _ _ _ j c hb)
  have hd1len : ((s ++ key :: t).foldl (fun d key =>
      setBits (bloomBytes bitsPerKey (s ++ key :: t).length * 8) 0
        (hashDelta hash key).1 (hashDelta hash key).2 kNum d)
      (List.replicate (bloomBytes bitsPerKey (s ++ key :: t).length) 0
        ++ [kNum])).length = B + 1 := by
    rw [foldl_length_pres _ (fun d a => length_setBits _ _ _ _ _ d)]
    simp [hB]
  apply setBits_sets
  · intro q hq
    rw [← hB] at hq
    rw [foldl_length_pres _ (fun d a => length_setBits _ _ _ _ _ d)]
    have hq' := probeSeq_lt (B * 8) _ _ (by omega) _ q hq
    have hqd : q / 8 < B := (Nat.div_lt_iff_lt_mul (by omega)).mpr hq'
    rw [List.length_append, List.length_replicate, ← hB]
    have h1 : ([kNum] : List Nat).length = 1 := rfl
    omega
  · exact hpos

/-- C2: the Bloom filter policy has no false negatives: for every non-empty
key list and every key in it, `KeyMayMatch` accepts the key against the
filter `CreateFilter` produced, because the probe sequence
(`h` from the hash, `delta = h` rotated right 17 bits, `k` probes of bit
`h mod bits`) is regenerated identically on both sides.  `kNum ≤ 30` is
guaranteed by the `BloomFilterPolicy` constructor's clamp; the property
holds for every hash function, in particular the seeded one of the source. -/
theorem C2_bloom_no_false_negatives (hash : List Nat → Nat)
    (bitsPerKey kNum : Nat) (hk30 : kNum ≤ 30)
    (keys : List (List Nat)) (key : List Nat) (hmem : key ∈ keys) :
    KeyMayMatch hash key (CreateFilter hash bitsPerKey kNum keys []) = true :=
  bloom_nfn hash bitsPerKey kNum hk30 keys key hmem

theorem C2_bloom_no_false_negatives_witness :
    (6 : Nat) ≤ 30 ∧ ([97] : List Nat) ∈ [[97], [98, 99]] ∧
    KeyMayMatch (fun _ => 0) [97]
      (CreateFilter (fun _ => 0) 10 6 [[97], [98, 99]] []) = true :=
  ⟨by decide, by decide,
    C2_bloom_no_false_negatives (fun _ => 0) 10 6 (by decide)
      [[97], [98, 99]] [97] (by decide)⟩

end BloomFilterPolicy

/-! ## Filter block builder: refinement to the `(filters, pending)` view -/

theorem getD_append_self {α : Type} (A : List α) (x d : α) :
    (A ++ [x]).getD A.length d = x := by
  rw [List.getD_append_right _ _ _ _ (le_refl _), Nat.sub_self]
  rfl

/-- The key-reconstruction loop of `GenerateFilter` recovers exactly the
list of keys whose flattened bytes and start offsets the builder holds. -/
theorem sliceKeys_reconstruct : ∀ (pend : List (List Nat)) (pre : List Nat),
    FilterBlockBuilder.sliceKeys (pre ++ pend.flatten)
      (offsetsOf pre.length pend) (pre.length + pend.flatten.length) = pend := by
  intro pend
  induction pend with
  | nil => intro pre; rfl
  | cons p rest ih =>
    intro pre
    cases rest with
    | nil =>
      show [slice (pre ++ ([p] : List (List Nat)).flatten) pre.length
        (pre.length + ([p] : List (List Nat)).flatten.length)] = [p]
      have hfl : ([p] : List (List Nat)).flatten = p := by simp
      rw [hfl]
      unfold slice
      rw [List.drop_left, Nat.add_sub_cancel_left, List.take_length]
    | cons q rest2 =>
      show slice (pre ++ (p :: q :: rest2).flatten) pre.length (pre.length + p.length)
          :: FilterBlockBuilder.sliceKeys (pre ++ (p :: q :: rest2).flatten)
            ((pre.length + p.length) :: offsetsOf ((pre.length + p.length) + q.length) rest2)
            (pre.length + ((p :: q :: rest2).flatten).length)
        = p :: q :: rest2
      congr 1
      · have hfl : (p :: q :: rest2).flatten = p ++ (q :: rest2).flatten := rfl
        rw [hfl]
        unfold slice
        rw [List.drop_left, Nat.add_sub_cancel_left, List.take_left]
      · show FilterBlockBuilder.sliceKeys (pre ++ (p :: q :: rest2).flatten)
            (offsetsOf (pre.length + p.length) (q :: rest2))
            (pre.length + ((p :: q :: rest2).flatten).length)
          = q :: rest2
        have hkeys : pre ++ (p :: q :: rest2).flatten
            = (pre ++ p) ++ (q :: rest2).flatten := by simp
        have hl : pre.length + p.length = (pre ++ p).length := by simp
        have htot : pre.length + ((p :: q :: rest2).flatten).length
            = (pre ++ p).length + ((q :: rest2).flatten).length := by
          simp
          omega
        rw [hkeys, hl, htot]
        exact ih (pre ++ p)

theorem FBRel_init : FBRel FilterBlockBuilder.init [] [] := ⟨rfl, rfl, rfl, rfl⟩

theorem FBRel_AddKey (fb : FilterBlockBuilder) (F pend : List (List Nat))
    (k : List Nat) (h : FBRel fb F pend) : FBRel (fb.AddKey k) F (pend ++ [k]) := by
  obtain ⟨h1, h2, h3, h4⟩ := h
  refine ⟨h1, h2, ?_, ?_⟩
  · show fb.keys ++ k = (pend ++ [k]).flatten
    rw [h3, List.flatten_append]
    simp
  · show fb.start ++ [fb.keys.length] = offsetsOf 0 (pend ++ [k])
    rw [h4, h3, offsetsOf_append_single, Nat.zero_add, List.length_flatten]

theorem FBRel_addKeys (ks : List (List Nat)) :
    ∀ (fb : FilterBlockBuilder) (F pend : List (List Nat)),
      FBRel fb F pend → FBRel (addKeys fb ks) F (pend ++ ks) := by
  induction ks with
  | nil => intro fb F pend h; simpa [addKeys] using h
  | cons k rest ih =>
    intro fb F pend h
    have h1 := FBRel_AddKey fb F pend k h
    have h2 := ih (fb.AddKey k) F (pend ++ [k]) h1
    show FBRel (addKeys (fb.AddKey k) rest) F (pend ++ (k :: rest))
    rw [show pend ++ (k :: rest) = (pend ++ [k]) ++ rest by simp]
    exact h2

theorem FBRel_gen (P : FilterPolicyM) (fb : FilterBlockBuilder)
    (F pend : List (List Nat)) (h : FBRel fb F pend) :
    FBRel (FilterBlockBuilder.GenerateFilter P fb)
      (F ++ [if pend.isEmpty then [] else P.create pend]) [] := by
  obtain ⟨h1, h2, h3, h4⟩ := h
  cases pend with
  | nil =>
    have hstart : fb.start.length = 0 := by rw [h4]; rfl
    unfold FilterBlockBuilder.GenerateFilter
    rw [if_pos hstart]
    refine ⟨?_, ?_, ?_, ?_⟩
    · show fb.result = (F ++ [([] : List Nat)]).flatten
      rw [h1, List.flatten_append]
      simp
    · show fb.filterOffsets ++ [fb.result.length] = offsetsOf 0 (F ++ [[]])
      rw [h2, h1, offsetsOf_append_single, Nat.zero_add, List.length_flatten]
    · exact h3
    · exact h4
  | cons p rest =>
    have hstart : ¬ fb.start.length = 0 := by
      rw [h4]
      show ¬ (0 :: offsetsOf (0 + p.length) rest).length = 0
      simp
    unfold FilterBlockBuilder.GenerateFilter
    rw [if_neg hstart]
    have hrec : FilterBlockBuilder.sliceKeys fb.keys fb.start fb.keys.length
        = p :: rest := by
      rw [h3, h4]
      have := sliceKeys_reconstruct (p :: rest) []
      simpa using this
    refine ⟨?_, ?_, rfl, rfl⟩
    · show fb.result ++ P.create (FilterBlockBuilder.sliceKeys fb.keys fb.start fb.keys.length)
        = (F ++ [if (p :: rest).isEmpty then [] else P.create (p :: rest)]).flatten
      rw [hrec, h1, List.flatten_append]
      simp
    · show fb.filterOffsets ++ [fb.result.length]
        = offsetsOf 0 (F ++ [if (p :: rest).isEmpty then [] else P.create (p :: rest)])
      rw [h2, h1, offsetsOf_append_single, Nat.zero_add, List.length_flatten]

theorem FBRel_genLoop (P : FilterPolicyM) : ∀ (n : Nat) (fb : FilterBlockBuilder)
    (F pend : List (List Nat)), FBRel fb F pend →
    FBRel (FilterBlockBuilder.genLoop P fb n)
      (specLoop P (F, pend) n).1 (specLoop P (F, pend) n).2 := by
  intro n
  induction n with
  | zero => intro fb F pend h; exact h
  | succ m ih =>
    intro fb F pend h
    exact ih (FilterBlockBuilder.GenerateFilter P fb)
      (F ++ [if pend.isEmpty then [] else P.create pend]) []
      (FBRel_gen P fb F pend h)

theorem FBRel_offsets_length (fb : FilterBlockBuilder) (F pend : List (List Nat))
    (h : FBRel fb F pend) : fb.filterOffsets.length = F.length := by
  rw [h.2.1, offsetsOf_length]

theorem FBRel_StartBlock (P : FilterPolicyM) (fb : FilterBlockBuilder)
    (F pend : List (List Nat)) (off : Nat) (h : FBRel fb F pend) :
    FBRel (fb.StartBlock P off)
      (specStart P (F, pend) off).1 (specStart P (F, pend) off).2 := by
  unfold FilterBlockBuilder.StartBlock specStart
  rw [FBRel_offsets_length fb F pend h]
  exact FBRel_genLoop P _ fb F pend h

theorem FBRel_trace (P : FilterPolicyM) (bs : List (List (List Nat) × Nat)) :
    FBRel (runBlocks P bs) (specTrace P bs).1 (specTrace P bs).2 := by
  unfold runBlocks specTrace
  have H : ∀ (l : List (List (List Nat) × Nat)) (fb : FilterBlockBuilder)
      (st : List (List Nat) × List (List Nat)), FBRel fb st.1 st.2 →
      FBRel (l.foldl (fun fb p => (addKeys fb p.1).StartBlock P p.2) fb)
        (l.foldl (fun st p => specStart P (st.1, st.2 ++ p.1) p.2) st).1
        (l.foldl (fun st p => specStart P (st.1, st.2 ++ p.1) p.2) st).2 := by
    intro l
    induction l with
    | nil => intro fb st h; exact h
    | cons p rest ih =>
      intro fb st h
      exact ih _ _ (FBRel_StartBlock P (addKeys fb p.1) st.1 (st.2 ++ p.1) p.2
        (FBRel_addKeys p.1 fb st.1 st.2 h))
  exact H bs _ _ (FBRel_StartBlock P FilterBlockBuilder.init [] [] 0 FBRel_init)

theorem Finish_encode (P : FilterPolicyM) (fb : FilterBlockBuilder)
    (F pend : List (List Nat)) (h : FBRel fb F pend) :
    fb.Finish P = encodeFB (if pend.isEmpty then F else F ++ [P.create pend]) := by
  cases pend with
  | nil =>
    have hstart : fb.start.length = 0 := by rw [h.2.2.2]; rfl
    unfold FilterBlockBuilder.Finish encodeFB
    rw [if_pos hstart]
    show fb.result ++ (fb.filterOffsets.map putFixed32).flatten
        ++ putFixed32 fb.result.length ++ [kFilterBaseLg] = _
    rw [h.1, h.2.1]
    rfl
  | cons p rest =>
    have hstart : ¬ fb.start.length = 0 := by
      rw [h.2.2.2]
      show ¬ (0 :: offsetsOf (0 + p.length) rest).length = 0
      simp
    have hgen := FBRel_gen P fb F (p :: rest) h
    rw [show (if (p :: rest).isEmpty then [] else P.create (p :: rest))
      = P.create (p :: rest) from rfl] at hgen
    unfold FilterBlockBuilder.Finish encodeFB
    rw [if_neg hstart]
    show (FilterBlockBuilder.GenerateFilter P fb).result
        ++ ((FilterBlockBuilder.GenerateFilter P fb).filterOffsets.map putFixed32).flatten
        ++ putFixed32 (FilterBlockBuilder.GenerateFilter P fb).result.length
        ++ [kFilterBaseLg] = _
    rw [hgen.1, (FBRel_gen P fb F (p :: rest) h).2.1]
    rfl

theorem buildFilterBlock_eq (P : FilterPolicyM) (bs : List (List (List Nat) × Nat)) :
    buildFilterBlock P bs = encodeFB (finalFilters P bs) := by
  unfold buildFilterBlock finalFilters
  exact Finish_encode P _ _ _ (FBRel_trace P bs)

/-! ## Filter block reader: parsing a well-formed filter block -/

theorem flatten_map_putFixed32_length (L : List Nat) :
    ((L.map putFixed32).flatten).length = 4 * L.length := by
  induction L with
  | nil => rfl
  | cons v rest ih =>
    show (putFixed32 v ++ (rest.map putFixed32).flatten).length = _
    rw [List.length_append, length_putFixed32, ih]
    simp
    omega

theorem encodeFB_decomp (F : List (List Nat)) : encodeFB F =
    F.flatten ++ ((offsetsOf 0 F ++ [F.flatten.length]).map putFixed32).flatten
      ++ [kFilterBaseLg] := by
  unfold encodeFB
  rw [List.map_append, List.flatten_append]
  simp

theorem encodeFB_length (F : List (List Nat)) :
    (encodeFB F).length = F.flatten.length + 4 * F.length + 5 := by
  rw [encodeFB_decomp, List.length_append, List.length_append,
    flatten_map_putFixed32_length]
  simp [offsetsOf_length]
  omega

/-- Constructing a `FilterBlockReader` over a well-formed encoded filter
block recovers the offset-array start, the filter count and `base_lg`. -/
theorem reader_make_encodeFB (F : List (List Nat))
    (hlen : F.flatten.length < 2^32) :
    FilterBlockReader.make (encodeFB F)
      = ⟨encodeFB F, F.flatten.length, F.length, kFilterBaseLg⟩ := by
  have hn : (encodeFB F).length = F.flatten.length + 4 * F.length + 5 :=
    encodeFB_length F
  have hbase : (encodeFB F).getD ((encodeFB F).length - 1) 0 = kFilterBaseLg := by
    rw [encodeFB_decomp]
    rw [show (F.flatten ++ ((offsetsOf 0 F ++ [F.flatten.length]).map putFixed32).flatten
        ++ [kFilterBaseLg]).length - 1
      = (F.flatten ++ ((offsetsOf 0 F ++ [F.flatten.length]).map putFixed32).flatten).length by
        rw [List.length_append, List.length_append]; simp]
    exact getD_append_self _ _ _
  have hdec : decodeFixed32 (encodeFB F) ((encodeFB F).length - 5)
      = F.flatten.length := by
    have hEnc : encodeFB F
        = (F.flatten ++ ((offsetsOf 0 F).map putFixed32).flatten)
          ++ (putFixed32 F.flatten.length ++ [kFilterBaseLg]) := by
      unfold encodeFB
      rw [List.append_assoc]
    rw [hEnc]
    have hpos : ((F.flatten ++ ((offsetsOf 0 F).map putFixed32).flatten)
        ++ (putFixed32 F.flatten.length ++ [kFilterBaseLg])).length - 5
        = (F.flatten ++ ((offsetsOf 0 F).map putFixed32).flatten).length + 0 := by
      simp only [List.length_append, length_putFixed32, List.length_cons,
        List.length_nil]
      omega
    rw [hpos, decodeFixed32_append, decode_putFixed32, Nat.mod_eq_of_lt hlen]
  unfold FilterBlockReader.make
  rw [if_neg (by omega)]
  rw [hbase, hdec, if_neg (by omega)]
  have hnum : ((encodeFB F).length - 5 - F.flatten.length) / 4 = F.length := by
    rw [hn]
    omega
  rw [hnum]

/-- Probing the reader over a well-formed encoded filter block with any
offset in window `w` hands the policy exactly filter `w`. -/
theorem reader_probe_encodeFB (P : FilterPolicyM) (F : List (List Nat))
    (key : List Nat) (off w : Nat) (hlen : F.flatten.length < 2^32)
    (hw : w < F.length) (hoff : off >>> kFilterBaseLg = w) :
    FilterBlockReader.KeyMayMatch P (FilterBlockReader.make (encodeFB F)) off key
      = P.mayMatch key (F.getD w []) := by
  rw [reader_make_encodeFB F hlen]
  have hexlen : (offsetsOf 0 F ++ [F.flatten.length]).length = F.length + 1 := by
    simp only [List.length_append, offsetsOf_length, List.length_cons,
      List.length_nil]
  have hstart : decodeFixed32 (encodeFB F) (F.flatten.length + 4 * w)
      = (F.take w).flatten.length := by
    rw [encodeFB_decomp]
    rw [decode_fixed32_array (offsetsOf 0 F ++ [F.flatten.length])
      F.flatten [kFilterBaseLg] w (by omega),
      offsetsExt_getD F w (by omega)]
    exact Nat.mod_eq_of_lt (by have := flatten_take_le F w; omega)
  have hlimit : decodeFixed32 (encodeFB F) (F.flatten.length + 4 * w + 4)
      = (F.take (w + 1)).flatten.length := by
    rw [encodeFB_decomp, show F.flatten.length + 4 * w + 4
      = F.flatten.length + 4 * (w + 1) by omega]
    rw [decode_fixed32_array (offsetsOf 0 F ++ [F.flatten.length])
      F.flatten [kFilterBaseLg] (w + 1) (by omega),
      offsetsExt_getD F (w + 1) (by omega)]
    exact Nat.mod_eq_of_lt (by have := flatten_take_le F (w + 1); omega)
  have hmono : (F.take w).flatten.length ≤ (F.take (w + 1)).flatten.length := by
    rw [flatten_take_succ F w hw]
    omega
  have hub : (F.take (w + 1)).flatten.length ≤ F.flatten.length :=
    flatten_take_le F (w + 1)
  show (if off >>> kFilterBaseLg < F.length then _ else _) = _
  rw [hoff, if_pos hw, hstart, hlimit, if_pos ⟨hmono, hub⟩]
  have hslice : slice (encodeFB F) ((F.take w).flatten.length)
      ((F.take (w + 1)).flatten.length) = F.getD w [] := by
    rw [encodeFB_decomp,
      slice_append _ _ _ _ (by
        rw [List.length_append]
        omega),
      slice_append _ _ _ _ hub, slice_flatten_at F w hw]
  rw [hslice]

/-! ## Specification-level filter trace: structural lemmas -/

theorem getD_replicate {α : Type} (n : Nat) (a d : α) (j : Nat) (hj : j < n) :
    (List.replicate n a).getD j d = a := by
  rw [List.getD_eq_getElem _ _ (by simpa using hj)]
  exact List.getElem_replicate _ _

theorem flatten_replicate_nil {α : Type} :
    ∀ n : Nat, (List.replicate n ([] : List α)).flatten = [] := by
  intro n
  induction n with
  | zero => rfl
  | succ m ih => rw [List.replicate_succ, List.flatten_cons, ih]; rfl

theorem shiftRight_filterBase (x : Nat) : x >>> kFilterBaseLg = x / kFilterBase := by
  rw [Nat.shiftRight_eq_div_pow]
  norm_num [kFilterBaseLg, kFilterBase]

theorem specLoop_fst_length (P : FilterPolicyM) : ∀ (n : Nat)
    (st : List (List Nat) × List (List Nat)),
    (specLoop P st n).1.length = st.1.length + n := by
  intro n
  induction n with
  | zero => intro st; rfl
  | succ m ih =>
    intro st
    show (specLoop P (specGen P st) m).1.length = _
    rw [ih]
    show (st.1 ++ [_]).length + m = _
    rw [List.length_append]
    simp
    omega

theorem specLoop_extends (P : FilterPolicyM) : ∀ (n : Nat)
    (st : List (List Nat) × List (List Nat)),
    ∃ G, (specLoop P st n).1 = st.1 ++ G := by
  intro n
  induction n with
  | zero => intro st; exact ⟨[], (List.append_nil _).symm⟩
  | succ m ih =>
    intro st
    obtain ⟨G, hG⟩ := ih (specGen P st)
    refine ⟨[if st.2.isEmpty then [] else P.create st.2] ++ G, ?_⟩
    show (specLoop P (specGen P st) m).1 = _
    rw [hG]
    show st.1 ++ [_] ++ G = _
    rw [List.append_assoc]

theorem specLoop_snd (P : FilterPolicyM) : ∀ (n : Nat)
    (st : List (List Nat) × List (List Nat)), 0 < n →
    (specLoop P st n).2 = [] := by
  intro n
  induction n with
  | zero => intro st h; omega
  | succ m ih =>
    intro st _
    show (specLoop P (specGen P st) m).2 = []
    rcases Nat.eq_zero_or_pos m with rfl | hm
    · rfl
    · exact ih (specGen P st) hm

theorem specLoop_getD_first (P : FilterPolicyM) (n : Nat)
    (st : List (List Nat) × List (List Nat)) (hn : 0 < n) :
    (specLoop P st n).1.getD st.1.length []
      = (if st.2.isEmpty then [] else P.create st.2) := by
  obtain ⟨m, rfl⟩ : ∃ m, n = m + 1 := ⟨n - 1, by omega⟩
  show (specLoop P (specGen P st) m).1.getD st.1.length [] = _
  obtain ⟨G, hG⟩ := specLoop_extends P m (specGen P st)
  rw [hG]
  show (st.1 ++ [if st.2.isEmpty then [] else P.create st.2] ++ G).getD
    st.1.length [] = _
  rw [List.append_assoc]
  have h := getD_append_add st.1
    ([if st.2.isEmpty then [] else P.create st.2] ++ G) 0 ([] : List Nat)
  rw [Nat.add_zero] at h
  rw [h]
  rfl

theorem specLoop_empty_pend (P : FilterPolicyM) : ∀ (m : Nat) (F : List (List Nat)),
    specLoop P (F, ([] : List (List Nat))) m = (F ++ List.replicate m [], []) := by
  intro m
  induction m with
  | zero => intro F; simp [specLoop]
  | succ k ih =>
    intro F
    show specLoop P (specGen P (F, [])) k = _
    rw [show specGen P (F, ([] : List (List Nat))) = (F ++ [[]], []) from rfl, ih]
    rw [List.replicate_succ, List.append_assoc]
    rfl

theorem specLoop_pos_closed (P : FilterPolicyM) (F pend : List (List Nat))
    (n : Nat) (hn : 0 < n) :
    specLoop P (F, pend) n
      = (F ++ [if pend.isEmpty then [] else P.create pend]
          ++ List.replicate (n - 1) [], []) := by
  obtain ⟨m, rfl⟩ : ∃ m, n = m + 1 := ⟨n - 1, by omega⟩
  show specLoop P (specGen P (F, pend)) m = _
  rw [show specGen P (F, pend)
    = (F ++ [if pend.isEmpty then [] else P.create pend], []) from rfl,
    specLoop_empty_pend, Nat.add_sub_cancel]

theorem specStart_zero (P : FilterPolicyM) :
    specStart P (([], []) : List (List Nat) × List (List Nat)) 0 = ([], []) := by
  unfold specStart
  rw [show 0 / kFilterBase
    - (([], []) : List (List Nat) × List (List Nat)).1.length = 0 by simp]
  rfl

/-! ## Every key of every block is accounted for along the trace -/

theorem trace_filter_inv (P : FilterPolicyM)
    (Hnfn : ∀ ks k, k ∈ ks → P.mayMatch k (P.create ks) = true) :
    ∀ (bs : List (List (List Nat) × Nat)) (s : Nat) (F pend : List (List Nat)),
      F.length = s / kFilterBase → chainOk s bs = true →
      ((bs.foldl (fun st p => specStart P (st.1, st.2 ++ p.1) p.2) (F, pend)).1.length
          = blockStartAt s bs bs.length / kFilterBase)
      ∧ (∃ G, (bs.foldl (fun st p => specStart P (st.1, st.2 ++ p.1) p.2) (F, pend)).1
          = F ++ G)
      ∧ (∀ k ∈ pend, coveredKey P
          (bs.foldl (fun st p => specStart P (st.1, st.2 ++ p.1) p.2) (F, pend))
          F.length k)
      ∧ (∀ i, i < bs.length → ∀ k ∈ (bs.getD i ([], 0)).1,
          coveredKey P
            (bs.foldl (fun st p => specStart P (st.1, st.2 ++ p.1) p.2) (F, pend))
            (blockStartAt s bs i / kFilterBase) k) := by
  intro bs
  induction bs with
  | nil =>
    intro s F pend hF hchain
    refine ⟨hF, ⟨[], by simp⟩, ?_, ?_⟩
    · intro k hk
      exact Or.inr ⟨rfl, hk⟩
    · intro i hi
      simp at hi
  | cons p rest ih =>
    obtain ⟨ks, e⟩ := p
    intro s F pend hF hchain
    have hse : s < e ∧ chainOk e rest = true := by
      have h : (decide (s < e) && chainOk e rest) = true := hchain
      rw [Bool.and_eq_true] at h
      exact ⟨of_decide_eq_true h.1, h.2⟩
    have hFle : F.length ≤ e / kFilterBase := by
      rw [hF]
      exact Nat.div_le_div_right (by omega)
    set st₁ := specStart P (F, pend ++ ks) e with hst₁
    have hstep : ((ks, e) :: rest).foldl
        (fun st p => specStart P (st.1, st.2 ++ p.1) p.2) (F, pend)
        = rest.foldl (fun st p => specStart P (st.1, st.2 ++ p.1) p.2) st₁ := rfl
    have hlen₁ : st₁.1.length = e / kFilterBase := by
      rw [hst₁]
      show (specLoop P (F, pend ++ ks)
        (e / kFilterBase - (F, pend ++ ks).1.length)).1.length = _
      rw [specLoop_fst_length]
      show F.length + (e / kFilterBase - F.length) = _
      omega
    rcases Nat.eq_zero_or_pos (e / kFilterBase - F.length) with hc | hc
    · -- the next block starts in the same window: nothing is generated
      have hid : st₁ = (F, pend ++ ks) := by
        rw [hst₁]
        show specLoop P (F, pend ++ ks) (e / kFilterBase - F.length) = _
        rw [hc]
        rfl
      obtain ⟨hA, hPres, hBp, hBi⟩ := ih e F (pend ++ ks) (by omega) hse.2
      rw [hstep, hid]
      refine ⟨hA, hPres, ?_, ?_⟩
      · intro k hk
        exact hBp k (List.mem_append.mpr (Or.inl hk))
      · intro i hi k hk
        cases i with
        | zero =>
          show coveredKey P _ (s / kFilterBase) k
          rw [← hF]
          exact hBp k (List.mem_append.mpr (Or.inr hk))
        | succ j =>
          exact hBi j (by simpa using hi) k hk
    · -- window advances: pending keys (plus this block's) are flushed
      have hpend₁ : st₁.2 = [] := by
        rw [hst₁]
        show (specLoop P (F, pend ++ ks) (e / kFilterBase - F.length)).2 = []
        exact specLoop_snd P _ _ hc
      have hfirst : st₁.1.getD F.length []
          = (if (pend ++ ks).isEmpty then [] else P.create (pend ++ ks)) := by
        rw [hst₁]
        show (specLoop P (F, pend ++ ks) (e / kFilterBase - F.length)).1.getD
          F.length [] = _
        exact specLoop_getD_first P _ (F, pend ++ ks) hc
      have hext₁ : ∃ G, st₁.1 = F ++ G := by
        rw [hst₁]
        show ∃ G, (specLoop P (F, pend ++ ks) (e / kFilterBase - F.length)).1
          = F ++ G
        exact specLoop_extends P _ (F, pend ++ ks)
      obtain ⟨hA, hPres₂, _, hBi₂⟩ := ih e st₁.1 st₁.2 hlen₁ hse.2
      have hst₁pair : (st₁.1, st₁.2) = st₁ := rfl
      rw [hst₁pair] at hA hPres₂ hBi₂
      have hcovflushed : ∀ k, k ∈ pend ++ ks → coveredKey P
          (rest.foldl (fun st p => specStart P (st.1, st.2 ++ p.1) p.2) st₁)
          F.length k := by
        intro k hkall
        obtain ⟨G₂, hG₂⟩ := hPres₂
        have hne : (pend ++ ks).isEmpty = false := by
          cases hE : (pend ++ ks).isEmpty
          · rfl
          · exact absurd (List.isEmpty_iff.mp hE) (List.ne_nil_of_mem hkall)
        have hflt : F.length < st₁.1.length := by omega
        refine Or.inl ⟨?_, ?_⟩
        · rw [hG₂, List.length_append]
          omega
        · rw [hG₂, List.getD_append _ _ _ _ hflt, hfirst, hne]
          exact Hnfn (pend ++ ks) k hkall
      rw [hstep]
      refine ⟨hA, ?_, ?_, ?_⟩
      · obtain ⟨G₁, hG₁⟩ := hext₁
        obtain ⟨G₂, hG₂⟩ := hPres₂
        exact ⟨G₁ ++ G₂, by rw [hG₂, hG₁, List.append_assoc]⟩
      · intro k hk
        exact hcovflushed k (List.mem_append.mpr (Or.inl hk))
      · intro i hi k hk
        cases i with
        | zero =>
          show coveredKey P _ (s / kFilterBase) k
          rw [← hF]
          exact hcovflushed k (List.mem_append.mpr (Or.inr hk))
        | succ j =>
          exact hBi₂ j (by simpa using hi) k hk

/-- C1: for every table built with a filter policy (any policy without
false negatives, as the `FilterPolicy` contract and the Bloom implementation
guarantee) and any sequence of data blocks at strictly increasing end
offsets, probing the finished filter block through the reader at a block's
file offset returns true for every key added while that block was
current. -/
theorem C1_filter_block_roundtrip (P : FilterPolicyM)
    (Hnfn : ∀ ks k, k ∈ ks → P.mayMatch k (P.create ks) = true)
    (bs : List (List (List Nat) × Nat))
    (Hchain : chainOk 0 bs = true)
    (Hsize : (finalFilters P bs).flatten.length < 2^32)
    (i : Nat) (hi : i < bs.length) (k : List Nat)
    (hk : k ∈ (bs.getD i ([], 0)).1) :
    FilterBlockReader.KeyMayMatch P
      (FilterBlockReader.make (buildFilterBlock P bs))
      (blockStartAt 0 bs i) k = true := by
  have h0 : specTrace P bs = bs.foldl
      (fun st p => specStart P (st.1, st.2 ++ p.1) p.2)
      (([], []) : List (List Nat) × List (List Nat)) := by
    unfold specTrace
    rw [specStart_zero]
  obtain ⟨_, _, _, hBi⟩ := trace_filter_inv P Hnfn bs 0 [] [] (by simp) Hchain
  have hcov := hBi i hi k hk
  rw [← h0] at hcov
  have hfin : blockStartAt 0 bs i / kFilterBase < (finalFilters P bs).length
      ∧ P.mayMatch k
          ((finalFilters P bs).getD (blockStartAt 0 bs i / kFilterBase) [])
        = true := by
    unfold finalFilters
    rcases hcov with ⟨hlt, hmm⟩ | ⟨heq, hmem⟩
    · cases hE : (specTrace P bs).2.isEmpty
      · rw [if_neg (by rw [hE]; simp)]
        refine ⟨by rw [List.length_append]; omega, ?_⟩
        rw [List.getD_append _ _ _ _ hlt]
        exact hmm
      · rw [if_pos hE]
        exact ⟨hlt, hmm⟩
    · have hE : (specTrace P bs).2.isEmpty = false := by
        cases hE : (specTrace P bs).2.isEmpty
        · rfl
        · exact absurd (List.isEmpty_iff.mp hE) (List.ne_nil_of_mem hmem)
      rw [if_neg (by rw [hE]; simp)]
      constructor
      · rw [List.length_append, heq]
        simp
      · rw [heq, getD_append_self]
        exact Hnfn _ k hmem
  rw [buildFilterBlock_eq,
    reader_probe_encodeFB P (finalFilters P bs) k (blockStartAt 0 bs i)
      (blockStartAt 0 bs i / kFilterBase) Hsize hfin.1
      (shiftRight_filterBase _), hfin.2]

theorem C1_filter_block_roundtrip_witness :
    FilterBlockReader.KeyMayMatch (bloomPolicy (fun _ => 0) 10 6)
      (FilterBlockReader.make
        (buildFilterBlock (bloomPolicy (fun _ => 0) 10 6) [([[97]], 6)]))
      (blockStartAt 0 [([[97]], 6)] 0) [97] = true :=
  C1_filter_block_roundtrip (bloomPolicy (fun _ => 0) 10 6)
    (fun ks k h => BloomFilterPolicy.bloom_nfn (fun _ => 0) 10 6 (by decide) ks k h)
    [([[97]], 6)] (by decide) (by decide) 0 (by decide) [97] (by decide)

/-- C8: a single data block straddling several 2 KiB windows makes the
builder emit zero-length filters for the skipped windows — their offset
equals the offset-array start, i.e. where the next filter would begin — and
the reader answers false for any key probed against such an empty filter
(given a policy that rejects empty filters, as Bloom does). -/
theorem C8_straddling_block_empty_filters (P : FilterPolicyM)
    (ks : List (List Nat)) (e p : Nat) (key : List Nat)
    (hEmpty : P.mayMatch key [] = false)
    (hsize : (finalFilters P [(ks, e)]).flatten.length < 2^32)
    (hw1 : 1 ≤ p / kFilterBase) (hw2 : p / kFilterBase < e / kFilterBase) :
    p / kFilterBase < (finalFilters P [(ks, e)]).length
    ∧ (finalFilters P [(ks, e)]).getD (p / kFilterBase) [] = []
    ∧ (offsetsOf 0 (finalFilters P [(ks, e)])).getD (p / kFilterBase) 0
        = (finalFilters P [(ks, e)]).flatten.length
    ∧ FilterBlockReader.KeyMayMatch P
        (FilterBlockReader.make (buildFilterBlock P [(ks, e)])) p key = false := by
  have hcount : 0 < e / kFilterBase := by omega
  have hFF : finalFilters P [(ks, e)]
      = (if ([] ++ ks : List (List Nat)).isEmpty then [] else P.create ([] ++ ks))
        :: List.replicate (e / kFilterBase - 1) [] := by
    unfold finalFilters
    have htr : specTrace P [(ks, e)]
        = ((if ([] ++ ks : List (List Nat)).isEmpty then []
            else P.create ([] ++ ks))
          :: List.replicate (e / kFilterBase - 1) [], []) := by
      unfold specTrace
      rw [specStart_zero]
      show specStart P (([] : List (List Nat)), [] ++ ks) e = _
      unfold specStart
      show specLoop P ([], [] ++ ks) (e / kFilterBase - 0) = _
      rw [Nat.sub_zero, specLoop_pos_closed P [] ([] ++ ks) _ hcount]
      simp
    rw [htr]
    rfl
  have hlenFF : (finalFilters P [(ks, e)]).length = e / kFilterBase := by
    rw [hFF]
    simp
    omega
  obtain ⟨j, hj⟩ : ∃ j, p / kFilterBase = j + 1 := ⟨p / kFilterBase - 1, by omega⟩
  have hgd : (finalFilters P [(ks, e)]).getD (p / kFilterBase) [] = [] := by
    rw [hFF, hj, List.getD_cons_succ]
    exact getD_replicate _ _ _ _ (by omega)
  have hflatten : (finalFilters P [(ks, e)]).flatten.length
      = (if ([] ++ ks : List (List Nat)).isEmpty then []
          else P.create ([] ++ ks)).length := by
    rw [hFF, List.flatten_cons, flatten_replicate_nil, List.append_nil]
  refine ⟨by omega, hgd, ?_, ?_⟩
  · rw [offsetsOf_getD 0 _ _ (by omega), Nat.zero_add, hflatten, hFF, hj,
      List.take_succ_cons, List.take_replicate, List.flatten_cons,
      flatten_replicate_nil, List.append_nil]
  · rw [buildFilterBlock_eq,
      reader_probe_encodeFB P (finalFilters P [(ks, e)]) key p
        (p / kFilterBase) hsize (by omega) (shiftRight_filterBase _), hgd]
    exact hEmpty

theorem C8_straddling_block_empty_filters_witness :
    2048 / kFilterBase < (finalFilters (bloomPolicy (fun _ => 0) 10 6)
        [([[97]], 4096)]).length
    ∧ (finalFilters (bloomPolicy (fun _ => 0) 10 6) [([[97]], 4096)]).getD
        (2048 / kFilterBase) [] = []
    ∧ (offsetsOf 0 (finalFilters (bloomPolicy (fun _ => 0) 10 6)
        [([[97]], 4096)])).getD (2048 / kFilterBase) 0
        = (finalFilters (bloomPolicy (fun _ => 0) 10 6)
            [([[97]], 4096)]).flatten.length
    ∧ FilterBlockReader.KeyMayMatch (bloomPolicy (fun _ => 0) 10 6)
        (FilterBlockReader.make (buildFilterBlock (bloomPolicy (fun _ => 0) 10 6)
          [([[97]], 4096)])) 2048 [98] = false :=
  C8_straddling_block_empty_filters (bloomPolicy (fun _ => 0) 10 6)
    [[97]] 4096 2048 [98] (by decide) (by decide) (by decide) (by decide)

/-! ## Block builder: restart cadence (C7) -/

/-- C7: with `block_restart_interval = 3`, adding keys `aa, ab, ac, ad`
produces a block whose entries 0 and 3 are encoded with `shared = 0` (full
key) and entries 1 and 2 with `shared = 1`, and whose restart array has
exactly two entries.  The buffer equality exhibits the four encoded entries
byte for byte: `[0,2,0,97,97 | 1,1,0,98 | 1,1,0,99 | 0,2,0,97,100]`
(each entry is `shared, non_shared, value_len, key suffix`; values are
empty), and the second restart points at byte 13, the start of entry 3. -/
theorem C7_restart_interval :
    (((((BlockBuilder.reset 3).Add [97, 97] []).Add [97, 98] []).Add
        [97, 99] []).Add [97, 100] []).buffer
      = [0, 2, 0, 97, 97, 1, 1, 0, 98, 1, 1, 0, 99, 0, 2, 0, 97, 100]
    ∧ (((((BlockBuilder.reset 3).Add [97, 97] []).Add [97, 98] []).Add
        [97, 99] []).Add [97, 100] []).restarts = [0, 13]
    ∧ (((((BlockBuilder.reset 3).Add [97, 97] []).Add [97, 98] []).Add
        [97, 99] []).Add [97, 100] []).restarts.length = 2 := by decide

/-! ## Filter segment count after a flush (C3) -/

theorem GenerateFilter_offsets_length (P : FilterPolicyM) (fb : FilterBlockBuilder) :
    (FilterBlockBuilder.GenerateFilter P fb).filterOffsets.length
      = fb.filterOffsets.length + 1 := by
  unfold FilterBlockBuilder.GenerateFilter
  split <;> simp

theorem genLoop_offsets_length (P : FilterPolicyM) : ∀ (n : Nat)
    (fb : FilterBlockBuilder),
    (FilterBlockBuilder.genLoop P fb n).filterOffsets.length
      = fb.filterOffsets.length + n := by
  intro n
  induction n with
  | zero => intro fb; rfl
  | succ m ih =>
    intro fb
    show (FilterBlockBuilder.genLoop P (FilterBlockBuilder.GenerateFilter P fb) m).filterOffsets.length = _
    rw [ih, GenerateFilter_offsets_length]
    omega

theorem StartBlock_offsets_ge (P : FilterPolicyM) (fb : FilterBlockBuilder)
    (off : Nat) :
    off / kFilterBase ≤ (fb.StartBlock P off).filterOffsets.length := by
  unfold FilterBlockBuilder.StartBlock
  rw [genLoop_offsets_length]
  omega

/-- C3 counterexample: the claim `M ≥ ⌈next_block_offset / 2^base_lg⌉` fails
on the code.  Flushing a one-entry data block (key `"a"`, value `"1"`, no
compression) writes 13 payload bytes plus the 5-byte trailer, so the offset
passed to `StartBlock` is 18; `StartBlock(18)` generates no filter
(`18 / 2048 = 0`), leaving `M = 0 < 1 = ⌈18 / 2048⌉`, even though the flush
really wrote a block (`pending_index_entry` is set). -/
theorem C3_counterexample :
    (TableBuilder.Flush ⟨fun _ => none, fun _ => 0⟩
      (TableBuilder.Add ⟨fun _ => none, fun _ => 0⟩ [97] [49]
        (TableBuilder.mk ⟨4096, 16, CompressionTy.noCompression,
          some truePolicy⟩))).offset = 18
    ∧ (TableBuilder.Flush ⟨fun _ => none, fun _ => 0⟩
        (TableBuilder.Add ⟨fun _ => none, fun _ => 0⟩ [97] [49]
          (TableBuilder.mk ⟨4096, 16, CompressionTy.noCompression,
            some truePolicy⟩))).pendingIndexEntry = true
    ∧ TableBuilder.filterSegCount (TableBuilder.Flush ⟨fun _ => none, fun _ => 0⟩
        (TableBuilder.Add ⟨fun _ => none, fun _ => 0⟩ [97] [49]
          (TableBuilder.mk ⟨4096, 16, CompressionTy.noCompression,
            some truePolicy⟩))) = 0
    ∧ ¬ ((18 + kFilterBase - 1) / kFilterBase
        ≤ TableBuilder.filterSegCount (TableBuilder.Flush ⟨fun _ => none, fun _ => 0⟩
            (TableBuilder.Add ⟨fun _ => none, fun _ => 0⟩ [97] [49]
              (TableBuilder.mk ⟨4096, 16, CompressionTy.noCompression,
                some truePolicy⟩)))) := by decide

/-- C3 amended: immediately after each data-block flush the number `M` of
emitted filter segments satisfies `M ≥ ⌊next_block_offset / 2^base_lg⌋`
(floor, not ceiling), where `next_block_offset` is the offset just past the
block and its trailer — exactly the offset `Flush` passes to
`StartBlock`. -/
theorem C3_amended_floor (env : Env) (r : TableRep) (fb : FilterBlockBuilder)
    (P : FilterPolicyM) (hok : r.ok = true)
    (hne : r.dataBlock.buffer.isEmpty = false)
    (hfb : r.filterBlock = some fb) (hP : r.options.filterPolicy = some P) :
    (TableBuilder.Flush env r).offset / kFilterBase
      ≤ TableBuilder.filterSegCount (TableBuilder.Flush env r) := by
  unfold TableBuilder.Flush TableBuilder.WriteBlock TableBuilder.WriteRawBlock
    TableBuilder.filterSegCount
  rw [hok, hne]
  simp only [Bool.not_true, Bool.false_eq_true, if_false, if_true, hfb, hP]
  exact StartBlock_offsets_ge P fb _

theorem C3_amended_floor_witness :
    (TableBuilder.Flush ⟨fun _ => none, fun _ => 0⟩
      (TableBuilder.Add ⟨fun _ => none, fun _ => 0⟩ [97] [49]
        (TableBuilder.mk ⟨4096, 16, CompressionTy.noCompression,
          some truePolicy⟩))).offset / kFilterBase
    ≤ TableBuilder.filterSegCount (TableBuilder.Flush ⟨fun _ => none, fun _ => 0⟩
        (TableBuilder.Add ⟨fun _ => none, fun _ => 0⟩ [97] [49]
          (TableBuilder.mk ⟨4096, 16, CompressionTy.noCompression,
            some truePolicy⟩))) :=
  C3_amended_floor ⟨fun _ => none, fun _ => 0⟩ _ ⟨[97], [0], [], []⟩ truePolicy
    rfl rfl rfl rfl

/-! ## Offset accounting (C4): `offset` equals the bytes appended to the sink -/

theorem blockTrailer_length (env : Env) (c : List Nat) (t : Nat) :
    (blockTrailer env c t).length = 5 := rfl

theorem inv_WriteRawBlock (env : Env) (c : List Nat) (t : Nat) (r : TableRep)
    (h : r.offset = r.file.length) :
    (TableBuilder.WriteRawBlock env c t r).2.offset
      = (TableBuilder.WriteRawBlock env c t r).2.file.length := by
  show r.offset + c.length + 5 = (r.file ++ c ++ blockTrailer env c t).length
  rw [List.length_append, List.length_append, blockTrailer_length]
  omega

theorem inv_WriteBlock (env : Env) (r : TableRep) (bb : BlockBuilder)
    (h : r.offset = r.file.length) :
    (TableBuilder.WriteBlock env r bb).2.1.offset
      = (TableBuilder.WriteBlock env r bb).2.1.file.length :=
  inv_WriteRawBlock env _ _ r h

theorem inv_footer (r' : TableRep) (mh ih : Nat × Nat)
    (h : r'.offset = r'.file.length) :
    r'.offset + (encodeFooter mh ih).length
      = (r'.file ++ encodeFooter mh ih).length := by
  rw [List.length_append]
  omega

theorem inv_Flush (env : Env) (r : TableRep) (h : r.offset = r.file.length) :
    (TableBuilder.Flush env r).offset = (TableBuilder.Flush env r).file.length := by
  unfold TableBuilder.Flush
  cases hok : r.ok
  · simp only [hok, Bool.not_false, if_true]
    exact h
  · simp only [hok, Bool.not_true, Bool.false_eq_true, if_false]
    cases hemp : r.dataBlock.buffer.isEmpty
    · simp only [Bool.false_eq_true, if_false]
      repeat' split
      all_goals exact inv_WriteBlock env r r.dataBlock h
    · simp only [if_true]
      exact h

theorem inv_Add (env : Env) (k v : List Nat) (r : TableRep)
    (h : r.offset = r.file.length) :
    (TableBuilder.Add env k v r).offset
      = (TableBuilder.Add env k v r).file.length := by
  unfold TableBuilder.Add
  cases hok : r.ok
  · simp only [hok, Bool.not_false, if_true]
    exact h
  · simp only [hok, Bool.not_true, Bool.false_eq_true, if_false]
    repeat' split
    all_goals first
      | exact h
      | exact inv_Flush env _ h

theorem inv_filterStep (env : Env) (r : TableRep)
    (h : r.offset = r.file.length) :
    (TableBuilder.finishFilterStep env r).2.offset
      = (TableBuilder.finishFilterStep env r).2.file.length := by
  unfold TableBuilder.finishFilterStep
  split
  · split
    · exact inv_WriteRawBlock env _ _ r h
    · exact h
  · exact h

theorem inv_metaStep (env : Env) (fh : Nat × Nat) (r : TableRep)
    (h : r.offset = r.file.length) :
    (TableBuilder.finishMetaStep env fh r).2.offset
      = (TableBuilder.finishMetaStep env fh r).2.file.length := by
  unfold TableBuilder.finishMetaStep
  split
  · exact inv_WriteBlock env r _ h
  · exact h

theorem inv_absorb (r : TableRep) (h : r.offset = r.file.length) :
    (TableBuilder.absorbPendingEntry r).offset
      = (TableBuilder.absorbPendingEntry r).file.length := by
  unfold TableBuilder.absorbPendingEntry
  split
  · exact h
  · exact h

theorem inv_indexStep (env : Env) (r : TableRep)
    (h : r.offset = r.file.length) :
    (TableBuilder.finishIndexStep env r).2.offset
      = (TableBuilder.finishIndexStep env r).2.file.length := by
  unfold TableBuilder.finishIndexStep
  split
  · exact inv_WriteBlock env _ _ (inv_absorb r h)
  · exact h

theorem inv_footerStep (mh ih : Nat × Nat) (r : TableRep)
    (h : r.offset = r.file.length) :
    (TableBuilder.finishFooterStep mh ih r).offset
      = (TableBuilder.finishFooterStep mh ih r).file.length := by
  unfold TableBuilder.finishFooterStep
  split
  · show r.offset + (encodeFooter mh ih).length
      = (r.file ++ encodeFooter mh ih).length
    rw [List.length_append]
    omega
  · exact h

theorem inv_Finish (env : Env) (r : TableRep) (h : r.offset = r.file.length) :
    (TableBuilder.Finish env r).offset
      = (TableBuilder.Finish env r).file.length := by
  unfold TableBuilder.Finish
  exact inv_footerStep _ _ _
    (inv_indexStep env _
      (inv_metaStep env _ _
        (inv_filterStep env _ (inv_Flush env r h))))

/-- C4: for any input sequence followed by `finish` (the sink never fails in
the model, matching the claim's scope), `file_size()` equals the total
number of bytes handed to the sink's append: every raw block write advances
`offset` by payload length plus the 5-byte trailer and the footer write by
the footer length, with no other appends. -/
theorem C4_file_size_eq_appended (env : Env) (opts : OptionsM)
    (ops : List (List Nat × List Nat)) :
    TableBuilder.FileSize (TableBuilder.Finish env
        (ops.foldl (fun r kv => TableBuilder.Add env kv.1 kv.2 r)
          (TableBuilder.mk opts)))
      = (TableBuilder.Finish env
          (ops.foldl (fun r kv => TableBuilder.Add env kv.1 kv.2 r)
            (TableBuilder.mk opts))).file.length := by
  apply inv_Finish
  have H : ∀ (l : List (List Nat × List Nat)) (r : TableRep),
      r.offset = r.file.length →
      (l.foldl (fun r kv => TableBuilder.Add env kv.1 kv.2 r) r).offset
        = (l.foldl (fun r kv => TableBuilder.Add env kv.1 kv.2 r) r).file.length := by
    intro l
    induction l with
    | nil => intro r h; exact h
    | cons kv rest ih => intro r h; exact ih _ (inv_Add env kv.1 kv.2 r h)
  exact H ops (TableBuilder.mk opts) rfl

/-! ## The pending-index-entry invariant (C5) -/

theorem pendInv_Flush (env : Env) (r : TableRep) (h : PendingInv r) :
    PendingInv (TableBuilder.Flush env r) := by
  unfold TableBuilder.Flush
  cases hok : r.ok
  · simp only [hok, Bool.not_false, if_true]
    exact h
  · simp only [hok, Bool.not_true, Bool.false_eq_true, if_false]
    cases hemp : r.dataBlock.buffer.isEmpty
    · simp only [Bool.false_eq_true, if_false]
      repeat' split
      all_goals exact fun _ => rfl
    · simp only [if_true]
      exact h

theorem pendInv_Add (env : Env) (k v : List Nat) (r : TableRep)
    (h : PendingInv r) : PendingInv (TableBuilder.Add env k v r) := by
  unfold TableBuilder.Add
  cases hok : r.ok
  · simp only [hok, Bool.not_false, if_true]
    exact h
  · simp only [hok, Bool.not_true, Bool.false_eq_true, if_false]
    cases hp : r.pendingIndexEntry
    · simp only [hp, Bool.false_eq_true, if_false]
      repeat' split
      all_goals first
        | (apply pendInv_Flush
           intro hq
           simp only [hp] at hq
           exact absurd hq (by decide))
        | (intro hq
           simp only [hp] at hq
           exact absurd hq (by decide))
    · simp only [hp, eq_self_iff_true, if_true]
      repeat' split
      all_goals first
        | (apply pendInv_Flush
           intro hq
           simp only [hp] at hq
           exact absurd hq (by decide))
        | (intro hq
           simp only [hp] at hq
           exact absurd hq (by decide))

theorem pendInv_filterStep (env : Env) (r : TableRep) (h : PendingInv r) :
    PendingInv (TableBuilder.finishFilterStep env r).2 := by
  unfold TableBuilder.finishFilterStep
  repeat' split
  all_goals exact h

theorem pendInv_metaStep (env : Env) (fh : Nat × Nat) (r : TableRep)
    (h : PendingInv r) : PendingInv (TableBuilder.finishMetaStep env fh r).2 := by
  unfold TableBuilder.finishMetaStep
  split
  · exact h
  · exact h

theorem pendInv_absorb (r : TableRep) (h : PendingInv r) :
    PendingInv (TableBuilder.absorbPendingEntry r) := by
  unfold TableBuilder.absorbPendingEntry
  split
  · exact fun hp => nomatch hp
  · exact h

theorem pendInv_indexStep (env : Env) (r : TableRep) (h : PendingInv r) :
    PendingInv (TableBuilder.finishIndexStep env r).2 := by
  unfold TableBuilder.finishIndexStep
  split
  · exact pendInv_absorb r h
  · exact h

theorem pendInv_footerStep (mh ih : Nat × Nat) (r : TableRep)
    (h : PendingInv r) : PendingInv (TableBuilder.finishFooterStep mh ih r) := by
  unfold TableBuilder.finishFooterStep
  split
  · exact h
  · exact h

theorem pendInv_Finish (env : Env) (r : TableRep) (h : PendingInv r) :
    PendingInv (TableBuilder.Finish env r) := by
  unfold TableBuilder.Finish
  exact pendInv_footerStep _ _ _
    (pendInv_indexStep env _
      (pendInv_metaStep env _ _
        (pendInv_filterStep env _ (pendInv_Flush env r h))))

/-- C5: whenever `pending_index_entry` is true the current data block
builder is empty, and every public operation — construction, add, flush,
finish — preserves this invariant: the flag is set only right after the
data block is written and reset, and is cleared before any entry enters a
fresh data block. -/
theorem C5_pending_implies_empty_data_block (env : Env) (opts : OptionsM)
    (key value : List Nat) (r : TableRep) (h : PendingInv r) :
    PendingInv (TableBuilder.mk opts)
    ∧ PendingInv (TableBuilder.Add env key value r)
    ∧ PendingInv (TableBuilder.Flush env r)
    ∧ PendingInv (TableBuilder.Finish env r) :=
  ⟨fun hp => (nomatch hp), pendInv_Add env key value r h,
    pendInv_Flush env r h, pendInv_Finish env r h⟩

theorem C5_pending_implies_empty_data_block_witness :
    PendingInv (TableBuilder.mk ⟨4096, 16, CompressionTy.noCompression, none⟩)
    ∧ PendingInv (TableBuilder.Add ⟨fun _ => none, fun _ => 0⟩ [97] [49]
        (TableBuilder.mk ⟨4096, 16, CompressionTy.noCompression, none⟩))
    ∧ PendingInv (TableBuilder.Flush ⟨fun _ => none, fun _ => 0⟩
        (TableBuilder.mk ⟨4096, 16, CompressionTy.noCompression, none⟩))
    ∧ PendingInv (TableBuilder.Finish ⟨fun _ => none, fun _ => 0⟩
        (TableBuilder.mk ⟨4096, 16, CompressionTy.noCompression, none⟩)) :=
  C5_pending_implies_empty_data_block ⟨fun _ => none, fun _ => 0⟩
    ⟨4096, 16, CompressionTy.noCompression, none⟩ [97] [49]
    (TableBuilder.mk ⟨4096, 16, CompressionTy.noCompression, none⟩)
    (fun hp => nomatch hp)

/-! ## The snappy acceptance threshold (C6) -/

theorem writeBlock_file_of_payload (env : Env) (r : TableRep)
    (bb : BlockBuilder) (ct : List Nat × Nat)
    (hpt : TableBuilder.writeBlockPayload env r.options.compression bb.Finish = ct) :
    (TableBuilder.WriteBlock env r bb).2.1.file
      = r.file ++ ct.1 ++ blockTrailer env ct.1 ct.2 := by
  show (TableBuilder.WriteRawBlock env
    (TableBuilder.writeBlockPayload env r.options.compression bb.Finish).1
    (TableBuilder.writeBlockPayload env r.options.compression bb.Finish).2
    r).2.file = _
  rw [hpt]
  rfl

/-- C6: with snappy compression enabled and the compressor succeeding,
`WriteBlock` stores the compressed bytes if and only if
`compressed.len < raw.len - raw.len / 8` (integer division); in particular
a compression saving exactly 12.5% of the raw size is stored uncompressed
with compression-type byte 0 in the trailer (the compressed form carries
type byte 1). -/
theorem C6_snappy_acceptance_threshold (env : Env) (r : TableRep)
    (bb : BlockBuilder) (c : List Nat)
    (hc : r.options.compression = CompressionTy.snappyCompression)
    (hcomp : env.compress bb.Finish = some c) :
    (c.length < bb.Finish.length - bb.Finish.length / 8 →
      (TableBuilder.WriteBlock env r bb).2.1.file
        = r.file ++ c ++ blockTrailer env c 1)
    ∧ (bb.Finish.length - bb.Finish.length / 8 ≤ c.length →
      (TableBuilder.WriteBlock env r bb).2.1.file
        = r.file ++ bb.Finish ++ blockTrailer env bb.Finish 0)
    ∧ (c.length = bb.Finish.length - bb.Finish.length / 8 →
      (TableBuilder.WriteBlock env r bb).2.1.file
        = r.file ++ bb.Finish ++ blockTrailer env bb.Finish 0) := by
  refine ⟨fun hlt => ?_, fun hge => ?_, fun heq => ?_⟩
  · exact writeBlock_file_of_payload env r bb (c, 1)
      (by simp only [TableBuilder.writeBlockPayload, hc, hcomp]
          rw [if_pos hlt])
  · exact writeBlock_file_of_payload env r bb (bb.Finish, 0)
      (by simp only [TableBuilder.writeBlockPayload, hc, hcomp]
          rw [if_neg (by omega)])
  · exact writeBlock_file_of_payload env r bb (bb.Finish, 0)
      (by simp only [TableBuilder.writeBlockPayload, hc, hcomp]
          rw [if_neg (by omega)])

theorem C6_snappy_acceptance_threshold_witness :
    ((([20] : List Nat).length
        < (BlockBuilder.reset 16).Finish.length
          - (BlockBuilder.reset 16).Finish.length / 8 →
      (TableBuilder.WriteBlock ⟨fun _ => some [20], fun _ => 0⟩
        (TableBuilder.mk ⟨4096, 16, CompressionTy.snappyCompression, none⟩)
        (BlockBuilder.reset 16)).2.1.file
        = (TableBuilder.mk ⟨4096, 16, CompressionTy.snappyCompression,
            none⟩).file ++ [20]
          ++ blockTrailer ⟨fun _ => some [20], fun _ => 0⟩ [20] 1)
    ∧ ((BlockBuilder.reset 16).Finish.length
          - (BlockBuilder.reset 16).Finish.length / 8 ≤ ([20] : List Nat).length →
      (TableBuilder.WriteBlock ⟨fun _ => some [20], fun _ => 0⟩
        (TableBuilder.mk ⟨4096, 16, CompressionTy.snappyCompression, none⟩)
        (BlockBuilder.reset 16)).2.1.file
        = (TableBuilder.mk ⟨4096, 16, CompressionTy.snappyCompression,
            none⟩).file ++ (BlockBuilder.reset 16).Finish
          ++ blockTrailer ⟨fun _ => some [20], fun _ => 0⟩
              (BlockBuilder.reset 16).Finish 0)
    ∧ (([20] : List Nat).length
        = (BlockBuilder.reset 16).Finish.length
          - (BlockBuilder.reset 16).Finish.length / 8 →
      (TableBuilder.WriteBlock ⟨fun _ => some [20], fun _ => 0⟩
        (TableBuilder.mk ⟨4096, 16, CompressionTy.snappyCompression, none⟩)
        (BlockBuilder.reset 16)).2.1.file
        = (TableBuilder.mk ⟨4096, 16, CompressionTy.snappyCompression,
            none⟩).file ++ (BlockBuilder.reset 16).Finish
          ++ blockTrailer ⟨fun _ => some [20], fun _ => 0⟩
              (BlockBuilder.reset 16).Finish 0)) :=
  C6_snappy_acceptance_threshold ⟨fun _ => some [20], fun _ => 0⟩
    (TableBuilder.mk ⟨4096, 16, CompressionTy.snappyCompression, none⟩)
    (BlockBuilder.reset 16) [20] rfl rfl

/-! ## Reader fail-open behavior (C10) -/

theorem make_contents (c : List Nat) : (FilterBlockReader.make c).contents = c := by
  simp only [FilterBlockReader.make]
  split
  · rfl
  · split <;> rfl

/-- C10 counterexample: the claim that malformed, out-of-range or
inconsistent inputs always make `KeyMayMatch` return true fails.  For the
13-byte contents below the offset-array start is 0 and window 0 decodes the
pair `(5, 5)`, which is inconsistent (`limit = 5` exceeds the offset-array
start 0); yet `KeyMayMatch` returns false through the `start == limit`
branch. -/
theorem C10_counterexample :
    (0 : Nat) >>> (FilterBlockReader.make
        [5, 0, 0, 0, 5, 0, 0, 0, 0, 0, 0, 0, 11]).baseLg
      < (FilterBlockReader.make [5, 0, 0, 0, 5, 0, 0, 0, 0, 0, 0, 0, 11]).num
    ∧ ¬ (decodeFixed32 [5, 0, 0, 0, 5, 0, 0, 0, 0, 0, 0, 0, 11]
            ((FilterBlockReader.make [5, 0, 0, 0, 5, 0, 0, 0, 0, 0, 0, 0, 11]).offsetStart
              + 4 * ((0 : Nat) >>> (FilterBlockReader.make
                  [5, 0, 0, 0, 5, 0, 0, 0, 0, 0, 0, 0, 11]).baseLg))
          ≤ decodeFixed32 [5, 0, 0, 0, 5, 0, 0, 0, 0, 0, 0, 0, 11]
            ((FilterBlockReader.make [5, 0, 0, 0, 5, 0, 0, 0, 0, 0, 0, 0, 11]).offsetStart
              + 4 * ((0 : Nat) >>> (FilterBlockReader.make
                  [5, 0, 0, 0, 5, 0, 0, 0, 0, 0, 0, 0, 11]).baseLg) + 4)
        ∧ decodeFixed32 [5, 0, 0, 0, 5, 0, 0, 0, 0, 0, 0, 0, 11]
            ((FilterBlockReader.make [5, 0, 0, 0, 5, 0, 0, 0, 0, 0, 0, 0, 11]).offsetStart
              + 4 * ((0 : Nat) >>> (FilterBlockReader.make
                  [5, 0, 0, 0, 5, 0, 0, 0, 0, 0, 0, 0, 11]).baseLg) + 4)
          ≤ (FilterBlockReader.make [5, 0, 0, 0, 5, 0, 0, 0, 0, 0, 0, 0, 11]).offsetStart)
    ∧ FilterBlockReader.KeyMayMatch truePolicy
        (FilterBlockReader.make [5, 0, 0, 0, 5, 0, 0, 0, 0, 0, 0, 0, 11])
        0 [] = false := by decide

/-- C10 amended: the reader fails open except through the empty-filter
branch: `KeyMayMatch` returns false exactly when the window index is below
the offset count and either the decoded `(start, limit)` pair is
well-formed and the policy rejects the filter slice, or `start = limit`
(an empty filter) — including when that equal pair lies beyond the
offset-array start.  Every malformed contents, out-of-range index, or
inconsistent pair with `start ≠ limit` yields true. -/
theorem C10_amended_fail_open (P : FilterPolicyM) (contents : List Nat)
    (blockOffset : Nat) (key : List Nat) :
    FilterBlockReader.KeyMayMatch P (FilterBlockReader.make contents)
        blockOffset key = false
    ↔ (blockOffset >>> (FilterBlockReader.make contents).baseLg
          < (FilterBlockReader.make contents).num
        ∧ ((decodeFixed32 contents ((FilterBlockReader.make contents).offsetStart
              + 4 * (blockOffset >>> (FilterBlockReader.make contents).baseLg))
            ≤ decodeFixed32 contents ((FilterBlockReader.make contents).offsetStart
              + 4 * (blockOffset >>> (FilterBlockReader.make contents).baseLg) + 4)
          ∧ decodeFixed32 contents ((FilterBlockReader.make contents).offsetStart
              + 4 * (blockOffset >>> (FilterBlockReader.make contents).baseLg) + 4)
            ≤ (FilterBlockReader.make contents).offsetStart
          ∧ P.mayMatch key (slice contents
              (decodeFixed32 contents ((FilterBlockReader.make contents).offsetStart
                + 4 * (blockOffset >>> (FilterBlockReader.make contents).baseLg)))
              (decodeFixed32 contents ((FilterBlockReader.make contents).offsetStart
                + 4 * (blockOffset >>> (FilterBlockReader.make contents).baseLg) + 4)))
            = false)
        ∨ (decodeFixed32 contents ((FilterBlockReader.make contents).offsetStart
              + 4 * (blockOffset >>> (FilterBlockReader.make contents).baseLg))
            = decodeFixed32 contents ((FilterBlockReader.make contents).offsetStart
              + 4 * (blockOffset >>> (FilterBlockReader.make contents).baseLg) + 4)
          ∧ (FilterBlockReader.make contents).offsetStart
            < decodeFixed32 contents ((FilterBlockReader.make contents).offsetStart
              + 4 * (blockOffset >>> (FilterBlockReader.make contents).baseLg) + 4)))) := by
  set r := FilterBlockReader.make contents with hr
  have hcon : r.contents = contents := make_contents contents
  unfold FilterBlockReader.KeyMayMatch
  rw [hcon]
  by_cases h1 : blockOffset >>> r.baseLg < r.num
  · rw [if_pos h1]
    by_cases h2 : decodeFixed32 contents (r.offsetStart
          + 4 * (blockOffset >>> r.baseLg))
        ≤ decodeFixed32 contents (r.offsetStart
          + 4 * (blockOffset >>> r.baseLg) + 4)
      ∧ decodeFixed32 contents (r.offsetStart
          + 4 * (blockOffset >>> r.baseLg) + 4) ≤ r.offsetStart
    · rw [if_pos h2]
      constructor
      · intro hf
        exact ⟨h1, Or.inl ⟨h2.1, h2.2, hf⟩⟩
      · rintro ⟨-, hOr⟩
        rcases hOr with ⟨-, -, hf⟩ | ⟨-, hlt⟩
        · exact hf
        · have := h2.2
          omega
    · rw [if_neg h2]
      by_cases h3 : decodeFixed32 contents (r.offsetStart
            + 4 * (blockOffset >>> r.baseLg))
          = decodeFixed32 contents (r.offsetStart
            + 4 * (blockOffset >>> r.baseLg) + 4)
      · rw [if_pos h3]
        constructor
        · intro _
          refine ⟨h1, Or.inr ⟨h3, ?_⟩⟩
          by_contra hle
          exact h2 ⟨le_of_eq h3, by omega⟩
        · intro _
          rfl
      · rw [if_neg h3]
        constructor
        · intro htf
          exact absurd htf (by simp)
        · rintro ⟨-, hOr⟩
          rcases hOr with ⟨ha, hb, -⟩ | ⟨heq, -⟩
          · exact absurd ⟨ha, hb⟩ h2
          · exact absurd heq h3
  · rw [if_neg h1]
    constructor
    · intro htf
      exact absurd htf (by simp)
    · rintro ⟨hlt, -⟩
      exact absurd hlt h1

end LevelDB
